import Mathlib

/-!
# A shallow embedding of the `tnetstring` C codec

This file embeds the core of the `rfk/tnetstring` C library
(`tns_core.c`, the numeric-literal callbacks of `_tnetstring.c`, and the
two output-buffer implementations `tns_outbuf_back.c` / `tns_outbuf_rev.c`)
into Lean 4 and proves properties of the embedded code.

Conventions used throughout:

* C byte strings `(const char *data, size_t len)` become `List Char`
  (one `Char` per byte; only byte values appear).
* Fallible C functions that return `NULL` / `-1` on failure become
  `Option` / `Except` valued functions.
* `size_t` arithmetic becomes `Nat` arithmetic (no quantity in the
  modelled code paths ever approaches `2^64`, and the `TNS_MAX_LENGTH`
  check bounds the only attacker-controlled counter).
* The host (CPython) value objects handled through the `tns_ops`
  callback table become the inductive type `Value` below; each callback
  of the byte-string ops table of `_tnetstring.c` is modelled by the
  correspondingly named Lean function.
-/

/-- Decidable equality of `Except` results, so that concrete runs of the
parser can be checked by `decide`. -/
instance {ε α : Type} [DecidableEq ε] [DecidableEq α] : DecidableEq (Except ε α) := fun a b =>
  match a, b with
  | .ok x, .ok y =>
    if h : x = y then .isTrue (by rw [h]) else .isFalse (by simp [h])
  | .error e, .error f =>
    if h : e = f then .isTrue (by rw [h]) else .isFalse (by simp [h])
  | .ok _, .error _ => .isFalse (by simp)
  | .error _, .ok _ => .isFalse (by simp)

/-- `TNS_MAX_LENGTH` from `tns_core.c`: the largest accepted length prefix. -/
def TNS_MAX_LENGTH : Nat := 999999999

/-- ASCII digit test, as the C comparisons `c >= '0' && c <= '9'`. -/
def isDig (c : Char) : Bool := '0' ≤ c && c ≤ '9'

/-- Digit value, as the C expression `c - '0'`. -/
def dval (c : Char) : Nat := c.toNat - 48

/-- The digit character for `n < 10`, as the C expression `n % 10 + '0'`. -/
def digCh (n : Nat) : Char := Char.ofNat (n % 10 + 48)

/-- `isspace` for the default C locale: the byte set strtod and
`PyLong_FromString` skip. -/
def isSpc (c : Char) : Bool :=
  c = ' ' || c = '\t' || c = '\n' || c = '\x0b' || c = '\x0c' || c = '\x0d'

/-- Numeric value of a most-significant-first digit string, accumulated the
way every scanning loop in the C source does it (`value = value*10 + (c-'0')`). -/
def valD : List Char → Nat → Nat
  | [], acc => acc
  | c :: cs, acc => valD cs (acc * 10 + dval c)

/--
The distinct parse-failure messages of `tns_core.c`, one constructor per
distinct `check`/`sentinel` message reachable from `tns_parse`:

* `badLenPfx`   — "Not a tnetstring: invalid length prefix."  (all three
  checks in `tns_parse`, including the truncation bounds check, use this
  one message; `tns_strtosz`'s internal "absurdly large length prefix"
  message is immediately overwritten by it as well)
* `badStr`      — "invalid string literal."
* `badInt`      — "invalid integer literal."
* `badFloat`    — "invalid float literal."
* `badBool`     — "invalid boolean literal."
* `badNull`     — "invalid null literal."
* `badDictItems`— "broken dict items."
* `badListItems`— "broken list items."
* `badTag`      — "invalid type tag."
-/
inductive ParseErr where
  | badLenPfx | badStr | badInt | badFloat | badBool | badNull
  | badDictItems | badListItems | badTag
  deriving DecidableEq, Repr

mutual
/--
The host values the byte-string `tns_ops` table of `_tnetstring.c` builds
and renders: `None`, bools, arbitrary-precision ints, floats, byte strings,
lists and dicts.

A CPython float object is represented by its `repr` text (the exact byte
string `tns_render_float` emits for it); CPython guarantees
`float(repr(x)) == x`, so this text is a faithful proxy for the double.
A dict is represented by its association list, listed in the order the
pairs appear in the encoded payload (`PyDict_Next` enumerates them in the
reverse of that order; a CPython dict itself is unordered).
-/
inductive Value where
  | null : Value
  | bool (b : Bool) : Value
  | int (n : Int) : Value
  | float (t : List Char) : Value
  | str (s : List Char) : Value
  | list (l : ValueList) : Value
  | dict (d : PairList) : Value
  deriving DecidableEq

inductive ValueList where
  | nil : ValueList
  | cons (v : Value) (tl : ValueList) : ValueList
  deriving DecidableEq

inductive PairList where
  | nil : PairList
  | cons (k v : Value) (tl : PairList) : PairList
  deriving DecidableEq
end

/--
The digit-consuming loop of `tns_strtosz` (`tns_core.c`).  `acc` is the
C local `value`.  Returns the final value together with the unconsumed
suffix (the C `*end` output); `none` is the C `return -1`.
Mirrors the C exactly: a non-digit stops the scan and returns; a digit is
accumulated and then checked against `TNS_MAX_LENGTH`; running off the end
of the input with no non-digit found is an error.
-/
def tns_strtoszLoop (acc : Nat) : List Char → Option (Nat × List Char)
  | [] => none
  | c :: rest =>
    if isDig c then
      let acc' := acc * 10 + dval c
      if acc' ≤ TNS_MAX_LENGTH then tns_strtoszLoop acc' rest else none
    else
      some (acc, c :: rest)

/--
`tns_strtosz` (`tns_core.c`): read a base-ten length prefix.  A first
char `'0'` returns immediately (value 0) so that padding zeros fall to the
caller's colon check; any other first digit seeds the loop; a non-digit
first char is an error.  On empty input the C reads the byte one past the
buffer (see the instrumented model below); its observable outcome through
`tns_parse` is failure in every case, which `none` reflects here.
-/
def tns_strtosz : List Char → Option (Nat × List Char)
  | [] => none
  | c :: rest =>
    if c = '0' then some (0, rest)
    else if isDig c then tns_strtoszLoop (dval c) rest
    else none

/--
The shared hand-rolled digit loop of `tns_parse_integer`
(`_tnetstring.c`): consume the remaining chars, all of which must be
digits, into the accumulator, then apply the sign.  The C source has this
loop twice, once on a `long` (inputs of fewer than 10 bytes) and once on a
`long long` (fewer than 19 bytes); at most 18 digits fit well inside both
widths (`10^18 - 1 < 2^62`), so both copies compute exactly this function.
-/
def tns_parse_integerLoop (sign : Int) (acc : Int) : List Char → Option Int
  | [] => some (acc * sign)
  | c :: rest =>
    if isDig c then tns_parse_integerLoop sign (acc * 10 + (dval c : Int)) rest
    else none

/--
The first-character dispatch of the hand-rolled paths of
`tns_parse_integer`: a digit seeds the accumulator, `'+'`/`'-'` set the
sign, anything else is an error.  On empty input the C reads the byte
after the payload, which is the `'#'` type tag whenever this callback is
reached, so the `default:` branch fires; `none` reflects that.
-/
def tns_parse_integerSmall : List Char → Option Int
  | [] => none
  | c :: rest =>
    if isDig c then tns_parse_integerLoop 1 (dval c : Int) rest
    else if c = '+' then tns_parse_integerLoop 1 0 rest
    else if c = '-' then tns_parse_integerLoop (-1) 0 rest
    else none

/--
`PyLong_FromString(data, &dataend, 10)` of CPython 2.7 (external to this
repository; modelled from its documented and source behaviour, which the
comment in `tns_parse_integer` acknowledges as "technically this allows
whitespace around the number"): skip whitespace, optional sign, skip
whitespace again, then at least one decimal digit; after the digits an
optional `'L'`/`'l'` suffix and trailing whitespace are also consumed.
Returns the value and the number of chars consumed (the `dataend` output).
-/
def pyLongFromString (s : List Char) : Option (Int × Nat) :=
  let w1 := (s.takeWhile isSpc).length
  let r1 := s.drop w1
  let sn : Nat := if r1.head? = some '+' ∨ r1.head? = some '-' then 1 else 0
  let sign : Int := if r1.head? = some '-' then -1 else 1
  let r2 := r1.drop sn
  let w2 := (r2.takeWhile isSpc).length
  let r3 := r2.drop w2
  let ds := r3.takeWhile isDig
  if ds.length = 0 then none
  else
    let r4 := r3.drop ds.length
    let lsuf : Nat := if r4.head? = some 'L' ∨ r4.head? = some 'l' then 1 else 0
    let w3 := ((r4.drop lsuf).takeWhile isSpc).length
    some (sign * (valD ds 0 : Int), w1 + sn + w2 + ds.length + lsuf + w3)

/--
`tns_parse_integer` (`_tnetstring.c`): inputs of fewer than 10 bytes use
the `long` hand parser, fewer than 19 the `long long` hand parser (both
are `tns_parse_integerSmall`, see there), and everything else is handed to
`PyLong_FromString`, whose `dataend` must land exactly at the end of the
payload.
-/
def tns_parse_integer (data : List Char) : Option Int :=
  if data.length < 10 then tns_parse_integerSmall data
  else if data.length < 19 then tns_parse_integerSmall data
  else
    match pyLongFromString data with
    | none => none
    | some (v, endPos) => if endPos = data.length then some v else none

/-- Hex digit test (`isxdigit` in the C locale). -/
def isHexDig (c : Char) : Bool :=
  isDig c || ('a' ≤ c && c ≤ 'f') || ('A' ≤ c && c ≤ 'F')

/-- ASCII lower-casing, for strtod's case-insensitive `inf`/`nan` matching. -/
def lowCh (c : Char) : Char :=
  if 'A' ≤ c && c ≤ 'Z' then Char.ofNat (c.toNat + 32) else c

/-- Case-insensitive match of the literal word `w` against a prefix of `s`. -/
def matchCI (w : List Char) (s : List Char) : Bool :=
  match w, s with
  | [], _ => true
  | _ :: _, [] => false
  | a :: w', c :: s' => lowCh c = a && matchCI w' s'

/-- A char allowed inside strtod's `nan(...)` payload: alphanumeric or `'_'`. -/
def isNanCh (c : Char) : Bool :=
  isDig c || ('a' ≤ c && c ≤ 'z') || ('A' ≤ c && c ≤ 'Z') || c = '_'

/--
Length of a decimal exponent part (`e`/`E`, optional sign, at least one
digit) at the head of `s`, per the C99 strtod grammar; `0` when no valid
exponent starts here (strtod backtracks to before the `e` in that case).
`eLo`/`eHi` are `'e'`/`'E'` for decimal and `'p'`/`'P'` for hex floats.
-/
def expPartLen (eLo eHi : Char) (s : List Char) : Nat :=
  match s with
  | c :: r =>
    if c = eLo ∨ c = eHi then
      let sg : Nat := if r.head? = some '+' ∨ r.head? = some '-' then 1 else 0
      let d := ((r.drop sg).takeWhile isDig).length
      if d = 0 then 0 else 1 + sg + d
    else 0
  | [] => 0

/--
Length of the strtod "subject sequence" after the optional whitespace and
sign, i.e. one of (per C99 7.20.1.3, with the glibc behaviours of an
optional binary exponent on hex floats and of `nan(payload)`):

* `infinity` or `inf` (case-insensitive);
* `nan`, optionally followed by a parenthesised `isNanCh*` payload;
* `0x`/`0X` with at least one hex digit (an optional point among the
  digits), then an optional `p`-exponent;
* decimal digits with an optional point among them (at least one digit in
  total), then an optional `e`-exponent.

Returns `none` when no conversion can be performed at this position.
-/
def strtodCoreLen (s : List Char) : Option Nat :=
  if matchCI ['i', 'n', 'f', 'i', 'n', 'i', 't', 'y'] s then some 8
  else if matchCI ['i', 'n', 'f'] s then some 3
  else if matchCI ['n', 'a', 'n'] s then
    if (s.drop 3).head? = some '(' then
      let r := s.drop 4
      let p := r.takeWhile isNanCh
      if (r.drop p.length).head? = some ')' then some (3 + 1 + p.length + 1)
      else some 3
    else some 3
  else
    let hex : Bool := s.take 2 = ['0', 'x'] ∨ s.take 2 = ['0', 'X']
    let body := if hex then s.drop 2 else s
    let dig := if hex then isHexDig else isDig
    let a := (body.takeWhile dig).length
    let b1 := body.drop a
    let pt : Nat := if b1.head? = some '.' then 1 else 0
    let b := ((b1.drop pt).takeWhile dig).length
    if hex then
      if a + b = 0 then
        -- `0x` with no hex digit: strtod falls back to the plain `0`.
        some 1
      else some (2 + a + pt + b + expPartLen 'p' 'P' (b1.drop (pt + b)))
    else
      if a + b = 0 then none
      else some (a + pt + b + expPartLen 'e' 'E' (b1.drop (pt + b)))

/--
`strtod(data, &dataend)` of the C library (external to this repository;
modelled from the C99 specification and glibc behaviour, which the comment
in `tns_parse_float` acknowledges as "technically this allows whitespace
around the float"): the number of chars consumed, i.e. `dataend - data`.
Skips whitespace and an optional sign, then needs a valid subject
sequence; if there is none, no conversion is performed and `dataend` is
set back to `data`, so the whole span is `0`.
-/
def strtodSpan (s : List Char) : Nat :=
  let w := (s.takeWhile isSpc).length
  let r1 := s.drop w
  let sn : Nat := if r1.head? = some '+' ∨ r1.head? = some '-' then 1 else 0
  match strtodCoreLen (r1.drop sn) with
  | some n => w + sn + n
  | none => 0

/--
`tns_parse_float` (`_tnetstring.c`): run `strtod` on the payload and fail
unless `dataend` lands exactly at the end of the payload; on success the C
returns `PyFloat_FromDouble` of the parsed double, which the `Value` model
represents by the payload text itself.  (When the payload is empty,
strtod performs no conversion, `dataend == data == data + 0`, and the C
happily returns `0.0`.)
-/
def tns_parse_float (data : List Char) : Option Value :=
  if strtodSpan data = data.length then some (Value.float data) else none

/-- `tns_parse_string` of the byte-string ops (`PyString_FromStringAndSize`):
never fails, the payload bytes are the value. -/
def tns_parse_string (data : List Char) : Option Value :=
  some (Value.str data)

/-! ## The output buffer, abstractly

`tns_render_value` talks to the outbuf only through `tns_outbuf_putc`,
`tns_outbuf_puts`, `tns_outbuf_size` and `tns_outbuf_clamp`.  Both shipped
implementations keep the bytes written so far as a contiguous block and
*prepend* to it (`putc` stores at `*(--head)`, `puts` at `head -= len`),
and `tns_outbuf_finalize` returns that block unchanged.  The encoder below
therefore works on the block itself, a `List Char`, with `putc c = c :: ·`,
`puts s = s ++ ·` and `size = length`; the theorems about the concrete
buffer structs (see `BackBuf`/`RevBuf` below) justify this abstraction.
-/

/--
The do-while loop of `tns_outbuf_itoa` (`tns_core.c`): emit `n % 10 + '0'`
with `putc` (which prepends), divide by ten, repeat while nonzero.  Always
writes at least one digit.  The loop runs once per decimal digit; `fuel`
bounds the number of *further* iterations and is kept structural so that
concrete encodings evaluate inside the kernel — `fuel = n` is always
enough, since after the first digit at most `n - 1` divisions by ten can
be nonzero.
-/
def tns_outbuf_itoaLoop : Nat → Nat → List Char → List Char
  | 0, n, buf => digCh n :: buf
  | fuel + 1, n, buf =>
    let buf' := digCh n :: buf
    if n / 10 = 0 then buf' else tns_outbuf_itoaLoop fuel (n / 10) buf'
termination_by structural fuel _ _ => fuel

/-- `tns_outbuf_itoa` (`tns_core.c`): prepend the decimal numeral of `n`. -/
def tns_outbuf_itoa (n : Nat) (buf : List Char) : List Char :=
  tns_outbuf_itoaLoop n n buf

/-- The decimal numeral `tns_outbuf_itoa` produces for `n`, most
significant digit first. -/
def natChars (n : Nat) : List Char := tns_outbuf_itoa n []

/-- `PyObject_Str` of a CPython int/long, as rendered by
`tns_render_integer`: an optional `'-'` then the decimal digits. -/
def intChars (n : Int) : List Char :=
  if n < 0 then '-' :: natChars n.natAbs else natChars n.toNat

/-- The exact bool payloads (`tns_render_bool` / the `'!'` parse case). -/
def trueChars : List Char := ['t', 'r', 'u', 'e']

/-- See `trueChars`. -/
def falseChars : List Char := ['f', 'a', 'l', 's', 'e']

/--
`tns_outbuf_clamp` (`tns_core.c`): after a payload has been written,
prepend `':'` and then the decimal length of everything written since
`orig_size` (`datalen = tns_outbuf_size(outbuf) - orig_size`).
-/
def tns_outbuf_clamp (buf : List Char) (origSize : Nat) : List Char :=
  tns_outbuf_itoa (buf.length - origSize) (':' :: buf)

/--
`tns_get_type` (`_tnetstring.c`): classify a host value into its type
tag, in the same test order as the C (`Py_True`/`Py_False`, `Py_None`,
int/long, float, string, list, dict).  Total on `Value` because `Value`
has exactly the seven representable kinds (the C returns `0`, i.e.
"not serializable", for anything else).
-/
def tns_get_type : Value → Char
  | .bool _ => '!'
  | .null => '~'
  | .int _ => '#'
  | .float _ => '^'
  | .str _ => ','
  | .list _ => ']'
  | .dict _ => '}'

mutual
/--
`tns_render_value` (`tns_core.c`) over the abstract outbuf: write the type
tag, note `orig_size`, render the payload through the type's callback,
then `tns_outbuf_clamp` the length prefix on.  The string callback is
`tns_outbuf_puts` of the bytes; int/float render their decimal text
(`PyObject_Str` / `repr`); bool writes `true`/`false`; null writes
nothing.
-/
def tns_render_value (v : Value) (buf : List Char) : List Char :=
  let buf1 := tns_get_type v :: buf
  let orig := buf1.length
  let buf2 :=
    match v with
    | .null => buf1
    | .bool b => (if b then trueChars else falseChars) ++ buf1
    | .int n => intChars n ++ buf1
    | .float t => t ++ buf1
    | .str s => s ++ buf1
    | .list l => tns_render_list l buf1
    | .dict d => tns_render_dict d buf1
  tns_outbuf_clamp buf2 orig
termination_by structural v

/--
`tns_render_list` (`_tnetstring.c`): "all output is in reverse, so we must
write the last element first".  Since the abstract `putc`/`puts` prepend,
rendering the tail's encoding first and the head's on top of it realises
exactly that order: the innermost call here is the first one executed.
-/
def tns_render_list : ValueList → List Char → List Char
  | .nil, buf => buf
  | .cons v tl, buf => tns_render_value v (tns_render_list tl buf)
termination_by structural l => l

/--
`tns_render_dict` (`_tnetstring.c`): for each pair, render the value and
then its key on top of it ("you must write each value first, followed by
its key"), so that the pair reads key-then-value in the final byte order.
`PyDict_Next` enumerates the pairs in the reverse of the order the model
lists them (see `Value`), which the nesting below realises: the pair
rendered first is the last one of the list.
-/
def tns_render_dict : PairList → List Char → List Char
  | .nil, buf => buf
  | .cons k v tl, buf => tns_render_value k (tns_render_value v (tns_render_dict tl buf))
termination_by structural d => d
end

/--
`tns_render` (`tns_core.c`): initialize an outbuf, render the value, and
finalize.  Finalizing moves the written block to the front of the
allocation and reports its length; the block itself — returned here — is
unchanged.  Rendering in the model cannot fail: every `Value` is
serializable and allocation never fails.
-/
def tns_render (v : Value) : List Char := tns_render_value v []

mutual
/--
The payload bytes of a value's encoding, structurally: the bytes between
the `':'` and the type tag of `tns_render`'s output (proved as the
structural lemma about `tns_render_value` below).
-/
def payloadV : Value → List Char
  | .null => []
  | .bool b => if b then trueChars else falseChars
  | .int n => intChars n
  | .float t => t
  | .str s => s
  | .list l => encL l
  | .dict d => encD d

/-- Concatenated encodings of a list's items, structurally. -/
def encL : ValueList → List Char
  | .nil => []
  | .cons v tl =>
    (natChars (payloadV v).length ++ ':' :: (payloadV v ++ [tns_get_type v])) ++ encL tl

/-- Concatenated `key, value` encodings of a dict's pairs, structurally. -/
def encD : PairList → List Char
  | .nil => []
  | .cons k v tl =>
    (natChars (payloadV k).length ++ ':' :: (payloadV k ++ [tns_get_type k]))
      ++ (natChars (payloadV v).length ++ ':' :: (payloadV v ++ [tns_get_type v]))
      ++ encD tl
end

/-- The encoding of a value, structurally:
`<len> ':' <payload> <tag>` (proved equal to `tns_render` below). -/
def encV (v : Value) : List Char :=
  natChars (payloadV v).length ++ ':' :: (payloadV v ++ [tns_get_type v])

mutual
/--
`tns_parse` (`tns_core.c`), fuelled.  One unit of fuel is spent per
nested `tns_parse` activation; `tns_parse` below supplies `length + 1`
units, which is proven sufficient (every recursive activation works on a
strictly shorter slice), so the `0` sentinel case is unreachable there.

Steps, as in the C: `tns_strtosz` reads the length; the next byte must be
`':'`; the check `valstr + vallen < data + len` demands the payload plus
one tag byte to fit; the tag is the byte after the payload; the remainder
(the C `*remain` output) is everything after the tag; then the payload is
dispatched on the tag.  All three framing checks fail with the same
"invalid length prefix" message.
-/
def tnsParseF : Nat → List Char → Except ParseErr (Value × List Char)
  | 0, _ => .error .badLenPfx
  | fuel + 1, data =>
    match tns_strtosz data with
    | none => .error .badLenPfx
    | some (sz, rest) =>
      match rest with
      | [] => .error .badLenPfx
      | c :: after =>
        if c = ':' then
          if sz < after.length then
            match after.drop sz with
            | tag :: remain =>
              match tnsParsePayloadF fuel tag (after.take sz) with
              | .ok v => .ok (v, remain)
              | .error e => .error e
            | [] => .error .badLenPfx
          else .error .badLenPfx
        else .error .badLenPfx
termination_by structural fuel => fuel

/--
`tns_parse_payload` (`tns_core.c`): dispatch on the type tag.  String,
integer and float go through the ops callbacks (modelled above); bool
demands exactly `true`/`false`; null demands an empty payload; dict and
list run the item loops; an unknown tag is an error.
-/
def tnsParsePayloadF : Nat → Char → List Char → Except ParseErr Value
  | 0, _, _ => .error .badTag
  | fuel + 1, tag, data =>
    if tag = ',' then
      match tns_parse_string data with
      | some v => .ok v
      | none => .error .badStr
    else if tag = '#' then
      match tns_parse_integer data with
      | some n => .ok (.int n)
      | none => .error .badInt
    else if tag = '^' then
      match tns_parse_float data with
      | some v => .ok v
      | none => .error .badFloat
    else if tag = '!' then
      if data = trueChars then .ok (.bool true)
      else if data = falseChars then .ok (.bool false)
      else .error .badBool
    else if tag = '~' then
      if data.length = 0 then .ok .null else .error .badNull
    else if tag = '}' then
      match tnsParseDictF fuel data with
      | some d => .ok (.dict d)
      | none => .error .badDictItems
    else if tag = ']' then
      match tnsParseListF fuel data with
      | some l => .ok (.list l)
      | none => .error .badListItems
    else .error .badTag
termination_by structural fuel _ _ => fuel

/--
`tns_parse_list` (`tns_core.c`): while payload remains, parse one item off
the front and append it; any item failure fails the loop (`-1`, reported
as "broken list items" by the dispatcher).
-/
def tnsParseListF : Nat → List Char → Option ValueList
  | _, [] => some .nil
  | 0, _ :: _ => none
  | fuel + 1, c :: cs =>
    match tnsParseF fuel (c :: cs) with
    | .error _ => none
    | .ok (v, remain) =>
      match tnsParseListF fuel remain with
      | some tl => some (.cons v tl)
      | none => none
termination_by structural fuel _ => fuel

/--
`tns_parse_dict` (`tns_core.c`): while payload remains, parse a key and
then an item off the front and add the pair; any failure fails the loop
(`-1`, reported as "broken dict items" by the dispatcher).
-/
def tnsParseDictF : Nat → List Char → Option PairList
  | _, [] => some .nil
  | 0, _ :: _ => none
  | fuel + 1, c :: cs =>
    match tnsParseF fuel (c :: cs) with
    | .error _ => none
    | .ok (k, remain) =>
      match tnsParseF fuel remain with
      | .error _ => none
      | .ok (v, remain2) =>
        match tnsParseDictF fuel remain2 with
        | some tl => some (.cons k v tl)
        | none => none
termination_by structural fuel _ => fuel
end

/--
`tns_parse` (`tns_core.c`) on a byte string, with `length + 1` units of
fuel — enough for every input (see the fuel-independence theorem for C8).
`.ok (v, remain)` is a non-`NULL` return with `*remain` set; `.error e`
is a `NULL` return with `e`'s message as the reported error.
-/
def tns_parse (data : List Char) : Except ParseErr (Value × List Char) :=
  tnsParseF (data.length + 1) data

mutual
/--
The values for which the round-trip theorems hold, as a decidable
predicate:

* every float leaf's text is consumed entirely by strtod (true of every
  `repr` output, which is what the encoder writes); and
* every node's payload is at most `TNS_MAX_LENGTH` bytes, since the
  decoder rejects longer length prefixes outright.
-/
def wfV : Value → Bool
  | .null => true
  | .bool _ => true
  | .int n => decide ((intChars n).length ≤ TNS_MAX_LENGTH)
  | .float t => decide (strtodSpan t = t.length) && decide (t.length ≤ TNS_MAX_LENGTH)
  | .str s => decide (s.length ≤ TNS_MAX_LENGTH)
  | .list l => decide ((encL l).length ≤ TNS_MAX_LENGTH) && wfL l
  | .dict d => decide ((encD d).length ≤ TNS_MAX_LENGTH) && wfD d

/-- All items well formed (see `wfV`). -/
def wfL : ValueList → Bool
  | .nil => true
  | .cons v tl => wfV v && wfL tl

/-- All keys and values well formed (see `wfV`). -/
def wfD : PairList → Bool
  | .nil => true
  | .cons k v tl => wfV k && wfV v && wfD tl
end

/-! ## The two concrete output-buffer implementations

`tns_outbuf_back.c` keeps `(buffer, head, alloc_size)` and writes
backwards from the end of the allocation; `tns_outbuf_rev.c`
(`src/unnamed/part_001`, the variant labelled `tns_outbuf_rev`) keeps
`(buffer, used_size, alloc_size)`, writes forwards *in reverse byte
order*, and finalizes with an in-place reversal.  Pointers become offsets
into `buffer`; `malloc`/`realloc` junk is modelled as NUL bytes (it is
never observed).
-/

/--
The doubling loop shared by both `tns_outbuf_extend`s:
`while (new_size < target) new_size *= 2`, started from `sz`.
(`sz = 0` would loop forever in C; allocation sizes start at 64 and only
double, so that case is unreachable and `0` is returned as a sentinel.)
-/
def growSize (target : Nat) (sz : Nat) : Nat :=
  if target ≤ sz then sz
  else if sz = 0 then 0
  else growSize target (sz * 2)
termination_by target - sz
decreasing_by
  omega

/-- `memmove(buf + pos, s, s.length)` on a list-modelled buffer. -/
def writeAt (buf : List Char) (pos : Nat) (s : List Char) : List Char :=
  buf.take pos ++ s ++ buf.drop (pos + s.length)

/-- State of `tns_outbuf_back.c`: `head` is the offset of the last byte
written (the C `head` pointer minus the C `buffer` pointer). -/
structure BackBuf where
  buffer : List Char
  head : Nat
  allocSize : Nat
  deriving DecidableEq

/-- `tns_outbuf_size` (back): `alloc_size - (head - buffer)`. -/
def sizeB (b : BackBuf) : Nat := b.allocSize - b.head

/-- `tns_outbuf_init` (back): a 64-byte allocation, `head` one past its end. -/
def initB : BackBuf := ⟨List.replicate 64 '\x00', 64, 64⟩

/-- `tns_outbuf_extend` (back): pick the doubled size, `malloc` it, and
`memmove` the used block to its end. -/
def extendB (freeSize : Nat) (b : BackBuf) : BackBuf :=
  let used := sizeB b
  let newSize := growSize (freeSize + used) (b.allocSize * 2)
  { buffer := List.replicate (newSize - used) '\x00' ++ b.buffer.drop b.head
    head := newSize - used
    allocSize := newSize }

/-- `tns_outbuf_putc` (back): extend when `buffer == head`, then store at
`*(--head)`. -/
def putcB (b : BackBuf) (c : Char) : BackBuf :=
  let b' := if b.head = 0 then extendB 1 b else b
  { b' with buffer := b'.buffer.set (b'.head - 1) c, head := b'.head - 1 }

/-- `tns_outbuf_puts` (back): extend when `head - buffer < len`, then
`head -= len` and `memmove` the data there (kept in forward order). -/
def putsB (b : BackBuf) (s : List Char) : BackBuf :=
  let b' := if b.head < s.length then extendB s.length b else b
  { b' with buffer := writeAt b'.buffer (b'.head - s.length) s
            head := b'.head - s.length }

/-- `tns_outbuf_itoa` (back): the same do-while as `tns_outbuf_itoaLoop`,
through `putcB`. -/
def itoaB (b : BackBuf) (n : Nat) : BackBuf :=
  let b' := putcB b (digCh n)
  if n / 10 = 0 then b' else itoaB b' (n / 10)
termination_by n
decreasing_by
  exact Nat.div_lt_self (by omega) (by omega)

/-- `tns_outbuf_clamp` (back): `putc ':'` then itoa of
`tns_outbuf_size - orig_size`. -/
def clampB (b : BackBuf) (orig : Nat) : BackBuf :=
  itoaB (putcB b ':') (sizeB b - orig)

/-- `tns_outbuf_finalize` (back), with a non-NULL `len` output: `memmove`
the used block to the front and report its length.  The observable result
is the pair (finalized byte string, `*len`). -/
def finalizeB (b : BackBuf) : List Char × Nat :=
  (b.buffer.drop b.head, sizeB b)

/-- State of `tns_outbuf_rev` (`src/unnamed/part_001`). -/
structure RevBuf where
  buffer : List Char
  usedSize : Nat
  allocSize : Nat
  deriving DecidableEq

/-- `tns_outbuf_size` (rev): `used_size`. -/
def sizeR (b : RevBuf) : Nat := b.usedSize

/-- `tns_outbuf_init` (rev). -/
def initR : RevBuf := ⟨List.replicate 64 '\x00', 0, 64⟩

/-- `tns_outbuf_extend` (rev): pick the doubled size and `realloc`, which
keeps the leading bytes in place. -/
def extendR (freeSize : Nat) (b : RevBuf) : RevBuf :=
  let newSize := growSize (freeSize + b.usedSize) (b.allocSize * 2)
  { buffer := b.buffer ++ List.replicate (newSize - b.allocSize) '\x00'
    usedSize := b.usedSize
    allocSize := newSize }

/-- `tns_outbuf_putc` (rev): extend when full, then store at
`buffer[used_size++]`. -/
def putcR (b : RevBuf) (c : Char) : RevBuf :=
  let b' := if b.allocSize = b.usedSize then extendR 1 b else b
  { b' with buffer := b'.buffer.set b'.usedSize c, usedSize := b'.usedSize + 1 }

/-- `tns_outbuf_puts` (rev): extend when `alloc_size - used_size < len`,
then copy the data *in reverse* starting at `buffer + used_size` (the C
loop walks `dend` from the last byte of `data` down). -/
def putsR (b : RevBuf) (s : List Char) : RevBuf :=
  let b' := if b.allocSize - b.usedSize < s.length then extendR s.length b else b
  { b' with buffer := writeAt b'.buffer b'.usedSize s.reverse
            usedSize := b'.usedSize + s.length }

/-- `tns_outbuf_itoa` (rev). -/
def itoaR (b : RevBuf) (n : Nat) : RevBuf :=
  let b' := putcR b (digCh n)
  if n / 10 = 0 then b' else itoaR b' (n / 10)
termination_by n
decreasing_by
  exact Nat.div_lt_self (by omega) (by omega)

/-- `tns_outbuf_clamp` (rev): `putc ':'` then itoa of
`used_size - orig_size`. -/
def clampR (b : RevBuf) (orig : Nat) : RevBuf :=
  itoaR (putcR b ':') (sizeR b - orig)

/-- `tns_outbuf_finalize` (rev), with a non-NULL `len` output:
`tns_inplace_reverse(buffer, used_size)` and report `used_size`.  The
observable result is the pair (finalized byte string, `*len`). -/
def finalizeR (b : RevBuf) : List Char × Nat :=
  ((b.buffer.take b.usedSize).reverse, b.usedSize)

/-- A `tns_outbuf_putc` or `tns_outbuf_puts` call (the C7 op language). -/
inductive PutOp where
  | putc (c : Char)
  | puts (s : List Char)
  deriving DecidableEq

/-- A `putc`, `puts` or `clamp` call (the C9 op language). -/
inductive OutOp where
  | putc (c : Char)
  | puts (s : List Char)
  | clamp (orig : Nat)
  deriving DecidableEq

/-- The bytes a single `PutOp` appends. -/
def chunkOf : PutOp → List Char
  | .putc c => [c]
  | .puts s => s

/-- Run one `PutOp` on the back buffer. -/
def stepPB (b : BackBuf) : PutOp → BackBuf
  | .putc c => putcB b c
  | .puts s => putsB b s

/-- Run a `PutOp` sequence on a fresh back buffer, in call order. -/
def runPB (ops : List PutOp) : BackBuf := ops.foldl stepPB initB

/-- Run one `OutOp` on the back buffer. -/
def stepOB (b : BackBuf) : OutOp → BackBuf
  | .putc c => putcB b c
  | .puts s => putsB b s
  | .clamp orig => clampB b orig

/-- Run one `OutOp` on the rev buffer. -/
def stepOR (b : RevBuf) : OutOp → RevBuf
  | .putc c => putcR b c
  | .puts s => putsR b s
  | .clamp orig => clampR b orig

/-- Run an `OutOp` sequence on a fresh back buffer, in call order. -/
def runOB (ops : List OutOp) : BackBuf := ops.foldl stepOB initB

/-- Run an `OutOp` sequence on a fresh rev buffer, in call order. -/
def runOR (ops : List OutOp) : RevBuf := ops.foldl stepOR initR

/-! ## An instrumented model of the parser's memory reads

For the memory-safety claim the input is an unbounded memory `mem : Nat →
Char` together with the length `len` of the actual buffer `data[0..len)`;
the functions below mirror `tns_strtosz` and the framing part of
`tns_parse` and additionally record every offset the C dereferences.
(The payload-dispatch reads all lie at offsets `ndig + 1 .. ndig + sz`,
which the bounds check has already confined below `len`, so the framing
is where any out-of-bounds read must happen.)
-/

/-- The `while (pos < eod)` scan of `tns_strtosz`, recording each `*pos`
read.  Result: the C result (value and digit-end offset) plus reads.
Fuelled for structural recursion: each iteration moves `pos` one closer to
`eod`, so any `fuel` with `eod ≤ fuel + pos` never runs out before the
loop's own exit test fires — and at `fuel = 0` with `eod ≤ pos` the two
branches agree on `(none, reads)`, so the caller's `fuel = eod` is exact. -/
def strtoszMemLoop (mem : Nat → Char) (eod : Nat) :
    Nat → Nat → Nat → List Nat → (Option (Nat × Nat)) × List Nat
  | 0, _, _, reads => (none, reads)
  | fuel + 1, value, pos, reads =>
    if pos < eod then
      let c := mem pos
      let reads' := reads ++ [pos]
      if isDig c then
        let value' := value * 10 + dval c
        if value' ≤ TNS_MAX_LENGTH then strtoszMemLoop mem eod fuel value' (pos + 1) reads'
        else (none, reads')
      else (some (value, pos), reads')
    else (none, reads)
termination_by structural fuel _ _ _ => fuel

/-- `tns_strtosz` on raw memory: the C executes `c = *pos++` before any
bounds test, so offset `0` is read unconditionally — also when `len = 0`. -/
def tns_strtoszMem (mem : Nat → Char) (len : Nat) : (Option (Nat × Nat)) × List Nat :=
  let c := mem 0
  if c = '0' then (some (0, 1), [0])
  else if isDig c then strtoszMemLoop mem len len (dval c) 1 [0]
  else (none, [0])

/-- The offsets the framing part of `tns_parse` reads: the `tns_strtosz`
scan, then — whenever it succeeds — the unconditional `*valstr == ':'`
check at the digits' end, then, if the bounds check passes, the type-tag
byte `valstr[vallen]`. -/
def tns_parseMemReads (mem : Nat → Char) (len : Nat) : List Nat :=
  match tns_strtoszMem mem len with
  | (none, rd) => rd
  | (some (sz, ndig), rd) =>
    let rd1 := rd ++ [ndig]
    if mem ndig = ':' then
      if ndig + 1 + sz < len then rd1 ++ [ndig + 1 + sz]
      else rd1
    else rd1

/-! ## Lemmas: decimal numerals -/

theorem dval_digCh (n : Nat) : dval (digCh n) = n % 10 := by
  have h : n % 10 < 10 := Nat.mod_lt _ (by omega)
  unfold digCh dval
  interval_cases h : n % 10 <;> rfl

theorem isDig_digCh (n : Nat) : isDig (digCh n) = true := by
  have h : n % 10 < 10 := Nat.mod_lt _ (by omega)
  unfold digCh isDig
  interval_cases h : n % 10 <;> rfl

theorem itoaLoop_ne_nil (fuel n : Nat) (buf : List Char) :
    tns_outbuf_itoaLoop fuel n buf ≠ [] := by
  cases fuel with
  | zero => simp [tns_outbuf_itoaLoop]
  | succ f =>
    simp only [tns_outbuf_itoaLoop]
    split
    · simp
    · exact itoaLoop_ne_nil f (n / 10) _

theorem itoaLoop_append (fuel n : Nat) (buf : List Char) :
    tns_outbuf_itoaLoop fuel n buf = tns_outbuf_itoaLoop fuel n [] ++ buf := by
  induction fuel generalizing n buf with
  | zero => simp [tns_outbuf_itoaLoop]
  | succ f ih =>
    simp only [tns_outbuf_itoaLoop]
    split
    · simp
    · rw [ih (n / 10) (digCh n :: buf), ih (n / 10) [digCh n]]
      simp

theorem itoaLoop_fuel (n : Nat) : ∀ f g : Nat, n ≤ f → n ≤ g →
    tns_outbuf_itoaLoop f n [] = tns_outbuf_itoaLoop g n [] := by
  induction n using Nat.strong_induction_on with
  | _ n ih =>
    intro f g hf hg
    by_cases h10 : n / 10 = 0
    · cases f with
      | zero => cases g with
        | zero => rfl
        | succ g' => simp [tns_outbuf_itoaLoop, h10]
      | succ f' => cases g with
        | zero => simp [tns_outbuf_itoaLoop, h10]
        | succ g' => simp [tns_outbuf_itoaLoop, h10]
    · have hn10 : 10 ≤ n := by
        rcases Nat.lt_or_ge n 10 with h | h
        · exact absurd (Nat.div_eq_of_lt h) h10
        · exact h
      cases f with
      | zero => omega
      | succ f' => cases g with
        | zero => omega
        | succ g' =>
          simp only [tns_outbuf_itoaLoop, h10, if_false]
          rw [itoaLoop_append f' (n / 10), itoaLoop_append g' (n / 10)]
          have hd : n / 10 < n := Nat.div_lt_self (by omega) (by omega)
          have hb : n / 10 ≤ f' := by
            have := Nat.div_le_self n 10
            omega
          have hb' : n / 10 ≤ g' := by
            have := Nat.div_le_self n 10
            omega
          rw [ih (n / 10) hd f' g' hb hb']

/-- Unfolding characterization of `natChars`: one digit for `n < 10`,
otherwise the digits of `n / 10` followed by the digit of `n % 10`. -/
theorem natChars_eq (n : Nat) :
    natChars n = if n < 10 then [digCh n]
                 else natChars (n / 10) ++ [digCh n] := by
  unfold natChars tns_outbuf_itoa
  by_cases h : n < 10
  · have h10 : n / 10 = 0 := Nat.div_eq_of_lt h
    cases n with
    | zero => simp [tns_outbuf_itoaLoop, h]
    | succ m => simp [tns_outbuf_itoaLoop, h10, h]
  · have h10 : n / 10 ≠ 0 := by
      have : 0 < n / 10 := Nat.div_pos (by omega) (by omega)
      omega
    have hn : 1 ≤ n := by omega
    rcases Nat.exists_eq_succ_of_ne_zero (by omega : n ≠ 0) with ⟨m, rfl⟩
    simp only [tns_outbuf_itoaLoop, h10, if_false, if_neg h]
    rw [itoaLoop_append m ((m + 1) / 10)]
    congr 1
    have hd : (m + 1) / 10 ≤ m := by
      have := Nat.div_lt_self (by omega : 0 < m + 1) (by omega : 1 < 10)
      omega
    exact itoaLoop_fuel ((m + 1) / 10) m ((m + 1) / 10) hd (le_refl _)

theorem natChars_ne_nil (n : Nat) : natChars n ≠ [] := by
  rw [natChars_eq]
  split <;> simp

theorem natChars_all_dig (n : Nat) : ∀ c ∈ natChars n, isDig c = true := by
  induction n using Nat.strong_induction_on with
  | _ n ih =>
    rw [natChars_eq]
    split
    · intro c hc
      simp only [List.mem_singleton] at hc
      subst hc
      exact isDig_digCh n
    · intro c hc
      rw [List.mem_append] at hc
      rcases hc with hc | hc
      · exact ih (n / 10) (Nat.div_lt_self (by omega) (by omega)) c hc
      · simp only [List.mem_singleton] at hc
        subst hc
        exact isDig_digCh n

theorem valD_append (xs : List Char) (c : Char) (acc : Nat) :
    valD (xs ++ [c]) acc = (valD xs acc) * 10 + dval c := by
  induction xs generalizing acc with
  | nil => simp [valD]
  | cons x xs ih => simp [valD, ih]

theorem valD_natChars (n : Nat) : valD (natChars n) 0 = n := by
  induction n using Nat.strong_induction_on with
  | _ n ih =>
    rw [natChars_eq]
    split
    · simp [valD, dval_digCh]
      omega
    · rw [valD_append, ih (n / 10) (Nat.div_lt_self (by omega) (by omega)), dval_digCh]
      omega

theorem natChars_head_ne_zero (n : Nat) (hn : 1 ≤ n) :
    ∀ c cs, natChars n = c :: cs → c ≠ '0' := by
  induction n using Nat.strong_induction_on with
  | _ n ih =>
    intro c cs h hc
    subst hc
    rw [natChars_eq] at h
    by_cases hlt : n < 10
    · rw [if_pos hlt, List.cons.injEq] at h
      have h0 : digCh n = '0' := h.1
      have : dval (digCh n) = n % 10 := dval_digCh n
      rw [h0] at this
      have : n % 10 = 0 := by simpa [dval] using this.symm
      omega
    · rw [if_neg hlt] at h
      have hd : n / 10 < n := Nat.div_lt_self (by omega) (by omega)
      have hd1 : 1 ≤ n / 10 := Nat.div_pos (by omega) (by omega)
      rcases hnc : natChars (n / 10) with _ | ⟨c', cs'⟩
      · exact natChars_ne_nil _ hnc
      · rw [hnc, List.cons_append, List.cons.injEq] at h
        exact absurd h.1 (ih (n / 10) hd hd1 c' cs' hnc)

/-! ## Lemmas: the length-prefix scanner -/

theorem valD_ge (ds : List Char) (acc : Nat) : acc ≤ valD ds acc := by
  induction ds generalizing acc with
  | nil => simp [valD]
  | cons c cs ih =>
    simp only [valD]
    calc acc ≤ acc * 10 + dval c := by omega
    _ ≤ valD cs (acc * 10 + dval c) := ih _

theorem strtoszLoop_canonical (ds : List Char) (acc : Nat) (c : Char) (rest : List Char)
    (hds : ∀ d ∈ ds, isDig d = true) (hc : isDig c = false)
    (hle : valD ds acc ≤ TNS_MAX_LENGTH) :
    tns_strtoszLoop acc (ds ++ c :: rest) = some (valD ds acc, c :: rest) := by
  induction ds generalizing acc with
  | nil => simp [tns_strtoszLoop, hc, valD]
  | cons d ds ih =>
    have hd : isDig d = true := hds d (by simp)
    simp only [List.cons_append, tns_strtoszLoop, hd, if_true]
    have hacc : acc * 10 + dval d ≤ TNS_MAX_LENGTH := by
      have h1 : acc * 10 + dval d ≤ valD ds (acc * 10 + dval d) := valD_ge ds _
      have h2 : valD (d :: ds) acc = valD ds (acc * 10 + dval d) := rfl
      omega
    rw [if_pos hacc]
    exact ih _ (fun x hx => hds x (by simp [hx])) (by simpa [valD] using hle)

theorem strtoszLoop_overflow (ds : List Char) (acc : Nat) (tail : List Char)
    (hne : ds ≠ []) (hds : ∀ d ∈ ds, isDig d = true)
    (hgt : TNS_MAX_LENGTH < valD ds acc) :
    tns_strtoszLoop acc (ds ++ tail) = none := by
  induction ds generalizing acc with
  | nil => exact absurd rfl hne
  | cons d ds ih =>
    have hd : isDig d = true := hds d (by simp)
    simp only [List.cons_append, tns_strtoszLoop, hd, if_true]
    by_cases hacc : acc * 10 + dval d ≤ TNS_MAX_LENGTH
    · rw [if_pos hacc]
      have hne' : ds ≠ [] := by
        rintro rfl
        simp only [valD] at hgt
        omega
      exact ih _ hne' (fun x hx => hds x (by simp [hx])) (by simpa [valD] using hgt)
    · rw [if_neg hacc]

theorem strtoszLoop_suffix (s : List Char) (acc v : Nat) (r : List Char)
    (h : tns_strtoszLoop acc s = some (v, r)) : ∃ m, r = s.drop m := by
  induction s generalizing acc with
  | nil => simp [tns_strtoszLoop] at h
  | cons c cs ih =>
    simp only [tns_strtoszLoop] at h
    by_cases hd : isDig c
    · rw [if_pos hd] at h
      by_cases hle : acc * 10 + dval c ≤ TNS_MAX_LENGTH
      · rw [if_pos hle] at h
        obtain ⟨m, hm⟩ := ih _ h
        exact ⟨m + 1, by simpa using hm⟩
      · rw [if_neg hle] at h
        exact absurd h (by simp)
    · rw [if_neg hd] at h
      obtain ⟨rfl, rfl⟩ := by
        simpa using h
      exact ⟨0, rfl⟩

theorem strtosz_suffix (s : List Char) (v : Nat) (r : List Char)
    (h : tns_strtosz s = some (v, r)) : ∃ m, 1 ≤ m ∧ r = s.drop m := by
  match s with
  | [] => simp [tns_strtosz] at h
  | c :: cs =>
    simp only [tns_strtosz] at h
    by_cases h0 : c = '0'
    · rw [if_pos h0] at h
      obtain ⟨rfl, rfl⟩ := by simpa using h
      exact ⟨1, by omega, rfl⟩
    · rw [if_neg h0] at h
      by_cases hd : isDig c
      · rw [if_pos hd] at h
        obtain ⟨m, hm⟩ := strtoszLoop_suffix cs _ v r h
        exact ⟨m + 1, by omega, by simpa using hm⟩
      · rw [if_neg hd] at h
        exact absurd h (by simp)

/-- Reading the canonical numeral of `n ≤ TNS_MAX_LENGTH` followed by a
non-digit succeeds and stops exactly at the non-digit. -/
theorem strtosz_natChars (n : Nat) (c : Char) (rest : List Char)
    (hn : n ≤ TNS_MAX_LENGTH) (hc : isDig c = false) :
    tns_strtosz (natChars n ++ c :: rest) = some (n, c :: rest) := by
  rcases Nat.eq_zero_or_pos n with rfl | hpos
  · have h0 : natChars 0 = ['0'] := by rw [natChars_eq]; rfl
    rw [h0]
    simp [tns_strtosz]
  · rcases hnc : natChars n with _ | ⟨d, ds⟩
    · exact absurd hnc (natChars_ne_nil _)
    · have hd : isDig d = true := natChars_all_dig n d (by rw [hnc]; simp)
      have hd0 : d ≠ '0' := natChars_head_ne_zero n hpos d ds hnc
      simp only [List.cons_append, tns_strtosz, hd0, if_false, hd, if_true]
      have hval : valD ds (dval d) = n := by
        have := valD_natChars n
        rw [hnc] at this
        simpa [valD] using this
      have := strtoszLoop_canonical ds (dval d) c rest
        (fun x hx => natChars_all_dig n x (by rw [hnc]; simp [hx])) hc (by omega)
      rw [this, hval]

/-! ## Lemmas: parser consumption and fuel -/

theorem tnsParseF_consume (f : Nat) (data : List Char) (v : Value) (rem : List Char)
    (h : tnsParseF f data = .ok (v, rem)) :
    ∃ k, 3 ≤ k ∧ k ≤ data.length ∧ rem = data.drop k := by
  match f with
  | 0 => simp [tnsParseF] at h
  | f + 1 =>
    simp only [tnsParseF] at h
    split at h
    · simp at h
    next sz rest hsz =>
      split at h
      · simp at h
      next c after =>
        split at h
        next hc =>
          split at h
          next hlt =>
            split at h
            next tag remain hdrop =>
              split at h
              next w hp =>
                have hvr : rem = remain := ((by simpa using h : w = v ∧ remain = rem).2).symm
                subst hc
                obtain ⟨m, hm1, hmr⟩ := strtosz_suffix data sz (':' :: after) hsz
                have hmlt : m < data.length := by
                  by_contra hge
                  push_neg at hge
                  rw [List.drop_eq_nil_of_le hge] at hmr
                  exact absurd hmr (by simp)
                have hlen : after.length = data.length - (m + 1) := by
                  have ht := congrArg List.tail hmr
                  simp only [List.tail_cons, List.tail_drop] at ht
                  rw [ht, List.length_drop]
                have hrem2 : rem = after.drop (sz + 1) := by
                  have ht := congrArg List.tail hdrop
                  simp only [List.tail_cons, List.tail_drop] at ht
                  rw [hvr, ← ht]
                have hafter : after = data.drop (m + 1) := by
                  have ht := congrArg List.tail hmr
                  simpa [List.tail_drop] using ht
                refine ⟨m + sz + 2, by omega, by omega, ?_⟩
                rw [hrem2, hafter, List.drop_drop]
                congr 1
                omega
              next e hp => simp at h
            next hdrop => simp at h
          next hlt => simp at h
        next hc => simp at h

theorem parse_fuel_all : ∀ N : Nat,
    (∀ data : List Char, data.length ≤ N → ∀ f g, data.length < f → data.length < g →
      tnsParseF f data = tnsParseF g data) ∧
    (∀ data : List Char, data.length ≤ N → ∀ f g, data.length + 1 < f → data.length + 1 < g →
      tnsParseListF f data = tnsParseListF g data) ∧
    (∀ data : List Char, data.length ≤ N → ∀ f g, data.length + 1 < f → data.length + 1 < g →
      tnsParseDictF f data = tnsParseDictF g data) ∧
    (∀ (tag : Char) (data : List Char), data.length ≤ N → ∀ f g, data.length + 2 < f →
      data.length + 2 < g → tnsParsePayloadF f tag data = tnsParsePayloadF g tag data) := by
  intro N
  induction N using Nat.strong_induction_on with
  | _ N SIH =>
    have hP : ∀ data : List Char, data.length ≤ N → ∀ f g, data.length < f → data.length < g →
        tnsParseF f data = tnsParseF g data := by
      intro data hN f g hf hg
      match f, g with
      | f + 1, g + 1 =>
        simp only [tnsParseF]
        rcases hsz : tns_strtosz data with _ | ⟨sz, rest⟩
        · rfl
        · obtain ⟨m, hm1, hmr⟩ := strtosz_suffix data sz rest hsz
          rcases rest with _ | ⟨c, after⟩
          · rfl
          dsimp only
          by_cases hc : c = ':'
          case neg => rw [if_neg hc, if_neg hc]
          rw [if_pos hc, if_pos hc]
          by_cases hlt : sz < after.length
          case neg => rw [if_neg hlt, if_neg hlt]
          rw [if_pos hlt, if_pos hlt]
          rcases hdrop : after.drop sz with _ | ⟨tag, remain⟩
          · rfl
          dsimp only
          have hmlt : m < data.length := by
            by_contra hge
            push_neg at hge
            rw [List.drop_eq_nil_of_le hge] at hmr
            exact absurd hmr (by simp)
          have hlen : after.length = data.length - (m + 1) := by
            have ht := congrArg List.tail hmr
            simp only [List.tail_cons, List.tail_drop] at ht
            rw [ht, List.length_drop]
          have hszlen : (after.take sz).length = sz := by
            simp only [List.length_take]
            omega
          have heq := (SIH sz (by omega)).2.2.2 tag (after.take sz)
            (by omega) f g (by omega) (by omega)
          rw [heq]
    have hL : ∀ data : List Char, data.length ≤ N → ∀ f g, data.length + 1 < f →
        data.length + 1 < g → tnsParseListF f data = tnsParseListF g data := by
      intro data hN f g hf hg
      match data, f, g with
      | [], _, _ => simp [tnsParseListF]
      | c :: cs, f + 1, g + 1 =>
        simp only [tnsParseListF]
        have hp := hP (c :: cs) hN f g (by omega) (by omega)
        rw [hp]
        rcases hres : tnsParseF g (c :: cs) with e | ⟨v, remain⟩
        · rfl
        dsimp only
        obtain ⟨k, hk3, hkle, hkr⟩ := tnsParseF_consume g (c :: cs) v remain hres
        have hremlen : remain.length = (c :: cs).length - k := by
          rw [hkr, List.length_drop]
        simp only [List.length_cons] at hN hf hg hkle hremlen
        have hrec := (SIH remain.length (by omega)).2.1 remain
          (le_refl _) f g (by omega) (by omega)
        rw [hrec]
    have hD : ∀ data : List Char, data.length ≤ N → ∀ f g, data.length + 1 < f →
        data.length + 1 < g → tnsParseDictF f data = tnsParseDictF g data := by
      intro data hN f g hf hg
      match data, f, g with
      | [], _, _ => simp [tnsParseDictF]
      | c :: cs, f + 1, g + 1 =>
        simp only [tnsParseDictF]
        have hp := hP (c :: cs) hN f g (by omega) (by omega)
        rw [hp]
        rcases hres : tnsParseF g (c :: cs) with e | ⟨k1, remain⟩
        · rfl
        dsimp only
        obtain ⟨k, hk3, hkle, hkr⟩ := tnsParseF_consume g (c :: cs) k1 remain hres
        have hremlen : remain.length = (c :: cs).length - k := by
          rw [hkr, List.length_drop]
        simp only [List.length_cons] at hN hf hg hkle hremlen
        have hp2 := hP remain (by omega) f g (by omega) (by omega)
        rw [hp2]
        rcases hres2 : tnsParseF g remain with e | ⟨v2, remain2⟩
        · rfl
        dsimp only
        obtain ⟨k2, hk23, hk2le, hk2r⟩ := tnsParseF_consume g remain v2 remain2 hres2
        have hrem2len : remain2.length = remain.length - k2 := by
          rw [hk2r, List.length_drop]
        have hrec := (SIH remain2.length (by omega)).2.2.1 remain2
          (le_refl _) f g (by omega) (by omega)
        rw [hrec]
    refine ⟨hP, hL, hD, ?_⟩
    intro tag data hN f g hf hg
    match f, g with
    | f + 1, g + 1 =>
      simp only [tnsParsePayloadF]
      by_cases h1 : tag = ','
      · simp +decide [h1]
      rw [if_neg h1, if_neg h1]
      by_cases h2 : tag = '#'
      · simp +decide [h2]
      rw [if_neg h2, if_neg h2]
      by_cases h3 : tag = '^'
      · simp +decide [h3]
      rw [if_neg h3, if_neg h3]
      by_cases h4 : tag = '!'
      · simp +decide [h4]
      rw [if_neg h4, if_neg h4]
      by_cases h5 : tag = '~'
      · simp +decide [h5]
      rw [if_neg h5, if_neg h5]
      by_cases h6 : tag = '}'
      · rw [if_pos h6, if_pos h6]
        rw [hD data hN f g (by omega) (by omega)]
      rw [if_neg h6, if_neg h6]
      by_cases h7 : tag = ']'
      · rw [if_pos h7, if_pos h7]
        rw [hL data hN f g (by omega) (by omega)]
      rw [if_neg h7, if_neg h7]

/-- Any fuel beyond the input length computes `tns_parse`. -/
theorem tnsParseF_eq_tns_parse (data : List Char) (f : Nat) (hf : data.length < f) :
    tnsParseF f data = tns_parse data :=
  (parse_fuel_all data.length).1 data (le_refl _) f (data.length + 1) hf (by omega)

/-! ## Lemmas: the renderer's output, structurally -/

/-- Mutual induction over `Value`/`ValueList`/`PairList`. -/
theorem value_mutual_ind {P : Value → Prop} {Q : ValueList → Prop} {R : PairList → Prop}
    (hnull : P .null) (hbool : ∀ b, P (.bool b)) (hint : ∀ n, P (.int n))
    (hfloat : ∀ t, P (.float t)) (hstr : ∀ s, P (.str s))
    (hlist : ∀ l, Q l → P (.list l)) (hdict : ∀ d, R d → P (.dict d))
    (hnil : Q .nil) (hcons : ∀ v tl, P v → Q tl → Q (.cons v tl))
    (hpnil : R .nil) (hpcons : ∀ k v tl, P k → P v → R tl → R (.cons k v tl)) :
    (∀ v, P v) ∧ (∀ l, Q l) ∧ (∀ d, R d) :=
  ⟨fun v => Value.rec hnull hbool hint hfloat hstr hlist hdict hnil hcons hpnil hpcons v,
   fun l => ValueList.rec hnull hbool hint hfloat hstr hlist hdict hnil hcons hpnil hpcons l,
   fun d => PairList.rec hnull hbool hint hfloat hstr hlist hdict hnil hcons hpnil hpcons d⟩

theorem itoa_prepend (n : Nat) (buf : List Char) :
    tns_outbuf_itoa n buf = natChars n ++ buf := by
  unfold tns_outbuf_itoa natChars tns_outbuf_itoa
  exact itoaLoop_append n n buf

theorem clamp_eq (buf : List Char) (orig : Nat) :
    tns_outbuf_clamp buf orig = natChars (buf.length - orig) ++ ':' :: buf := by
  unfold tns_outbuf_clamp
  rw [itoa_prepend]

theorem encL_cons (v : Value) (tl : ValueList) :
    encL (.cons v tl) = encV v ++ encL tl := rfl

theorem encD_cons (k v : Value) (tl : PairList) :
    encD (.cons k v tl) = encV k ++ encV v ++ encD tl := by
  simp [encD, encV]

/-- What `tns_render_value` writes is exactly `encV v`, prepended. -/
theorem render_structural :
    (∀ (v : Value) (buf : List Char), tns_render_value v buf = encV v ++ buf) ∧
    (∀ (l : ValueList) (buf : List Char), tns_render_list l buf = encL l ++ buf) ∧
    (∀ (d : PairList) (buf : List Char), tns_render_dict d buf = encD d ++ buf) := by
  refine value_mutual_ind ?_ ?_ ?_ ?_ ?_ ?_ ?_ ?_ ?_ ?_ ?_
  case refine_1 =>
    intro buf
    simp only [tns_render_value, clamp_eq, encV, payloadV, tns_get_type]
    simp
  case refine_2 =>
    intro b buf
    simp only [tns_render_value, clamp_eq, encV, payloadV, tns_get_type]
    cases b <;> simp [trueChars, falseChars]
  case refine_3 =>
    intro n buf
    simp only [tns_render_value, clamp_eq, encV, payloadV, tns_get_type]
    simp
  case refine_4 =>
    intro t buf
    simp only [tns_render_value, clamp_eq, encV, payloadV, tns_get_type]
    simp
  case refine_5 =>
    intro s buf
    simp only [tns_render_value, clamp_eq, encV, payloadV, tns_get_type]
    simp
  case refine_6 =>
    intro l ih buf
    simp only [tns_render_value, clamp_eq, encV, payloadV, tns_get_type, ih]
    simp
  case refine_7 =>
    intro d ih buf
    simp only [tns_render_value, clamp_eq, encV, payloadV, tns_get_type, ih]
    simp
  case refine_8 =>
    intro buf
    simp [tns_render_list, encL]
  case refine_9 =>
    intro v tl ihv ihtl buf
    simp [tns_render_list, encL_cons, ihv, ihtl]
  case refine_10 =>
    intro buf
    simp [tns_render_dict, encD]
  case refine_11 =>
    intro k v tl ihk ihv ihtl buf
    simp [tns_render_dict, encD_cons, ihk, ihv, ihtl]

/-- `tns_render` produces exactly the structural encoding. -/
theorem tns_render_eq_encV (v : Value) : tns_render v = encV v := by
  unfold tns_render
  rw [render_structural.1 v []]
  simp

/-! ## Lemmas: integer parsing -/

theorem parse_integerLoop_digits (ds : List Char) (sign : Int) (acc : Nat)
    (hds : ∀ d ∈ ds, isDig d = true) :
    tns_parse_integerLoop sign (acc : Int) ds = some ((valD ds acc : Int) * sign) := by
  induction ds generalizing acc with
  | nil => simp [tns_parse_integerLoop, valD]
  | cons d ds ih =>
    have hd : isDig d = true := hds d (by simp)
    simp only [tns_parse_integerLoop, hd, if_true]
    have : (acc : Int) * 10 + (dval d : Int) = ((acc * 10 + dval d : Nat) : Int) := by
      push_cast
      ring
    rw [this, ih _ (fun x hx => hds x (by simp [hx]))]
    rfl

theorem parse_integerLoop_junk (pre : List Char) (c : Char) (post : List Char)
    (sign : Int) (acc : Int) (hpre : ∀ d ∈ pre, isDig d = true) (hc : isDig c = false) :
    tns_parse_integerLoop sign acc (pre ++ c :: post) = none := by
  induction pre generalizing acc with
  | nil => simp [tns_parse_integerLoop, hc]
  | cons d ds ih =>
    have hd : isDig d = true := hpre d (by simp)
    simp only [List.cons_append, tns_parse_integerLoop, hd, if_true]
    exact ih _ (fun x hx => hpre x (by simp [hx]))

theorem isSpc_false_of_isDig {c : Char} (hd : isDig c = true) : isSpc c = false := by
  by_contra hc
  rw [Bool.not_eq_false] at hc
  unfold isSpc at hc
  simp only [Bool.or_eq_true, decide_eq_true_eq] at hc
  rcases hc with ((((hc | hc) | hc) | hc) | hc) | hc <;> subst hc <;> exact absurd hd (by decide)

theorem ne_sign_of_isDig {c : Char} (hd : isDig c = true) : c ≠ '+' ∧ c ≠ '-' := by
  constructor <;> {
    rintro rfl
    exact absurd hd (by decide) }

theorem parse_integerSmall_intChars (n : Int) :
    tns_parse_integerSmall (intChars n) = some n := by
  by_cases hneg : n < 0
  · have hic : intChars n = '-' :: natChars n.natAbs := by simp [intChars, hneg]
    rw [hic]
    have h1 : tns_parse_integerSmall ('-' :: natChars n.natAbs) =
        tns_parse_integerLoop (-1) 0 (natChars n.natAbs) := by
      simp +decide [tns_parse_integerSmall]
    rw [h1]
    have h2 := parse_integerLoop_digits (natChars n.natAbs) (-1) 0 (natChars_all_dig _)
    simp only [Nat.cast_zero] at h2
    rw [h2, valD_natChars]
    congr 1
    omega
  · have hic : intChars n = natChars n.toNat := by simp [intChars, hneg]
    rw [hic]
    rcases hnc : natChars n.toNat with _ | ⟨d, ds⟩
    · exact absurd hnc (natChars_ne_nil _)
    · have hd : isDig d = true := natChars_all_dig _ d (by rw [hnc]; simp)
      simp only [tns_parse_integerSmall, hd, if_true]
      have hds : ∀ x ∈ ds, isDig x = true := fun x hx =>
        natChars_all_dig _ x (by rw [hnc]; simp [hx])
      rw [parse_integerLoop_digits ds 1 (dval d) hds]
      have hval : valD ds (dval d) = n.toNat := by
        have := valD_natChars n.toNat
        rw [hnc] at this
        simpa [valD] using this
      rw [hval]
      simp only [mul_one, Option.some.injEq]
      omega

theorem takeWhile_all_eq_self {p : Char → Bool} (l : List Char)
    (h : ∀ c ∈ l, p c = true) : l.takeWhile p = l := by
  induction l with
  | nil => rfl
  | cons c cs ih =>
    rw [List.takeWhile_cons, if_pos (h c (by simp))]
    rw [ih (fun x hx => h x (by simp [hx]))]

theorem takeWhile_cons_false {p : Char → Bool} (c : Char) (cs : List Char)
    (h : p c = false) : (c :: cs).takeWhile p = [] := by
  simp [List.takeWhile_cons, h]

/-- `PyLong_FromString` on a nonempty plain digit string: every byte is
consumed and the value is the decimal value. -/
theorem pyLong_digits (d : Char) (ds : List Char)
    (hall : ∀ c ∈ d :: ds, isDig c = true) :
    pyLongFromString (d :: ds) = some ((valD (d :: ds) 0 : Int), (d :: ds).length) := by
  have hd := hall d (by simp)
  have h1 : (d :: ds).takeWhile isSpc = [] :=
    takeWhile_cons_false _ _ (isSpc_false_of_isDig hd)
  have hpm := ne_sign_of_isDig hd
  have h3 : (d :: ds).takeWhile isDig = d :: ds := takeWhile_all_eq_self _ hall
  unfold pyLongFromString
  simp [h1, h3, hpm.1, hpm.2]

/-- `PyLong_FromString` on `'-'` followed by digits. -/
theorem pyLong_neg_digits (d : Char) (ds : List Char)
    (hall : ∀ c ∈ d :: ds, isDig c = true) :
    pyLongFromString ('-' :: d :: ds) =
      some (-(valD (d :: ds) 0 : Int), ('-' :: d :: ds).length) := by
  have hd := hall d (by simp)
  have h1 : ('-' :: d :: ds).takeWhile isSpc = [] :=
    takeWhile_cons_false _ _ (by decide)
  have h2 : (d :: ds).takeWhile isSpc = [] :=
    takeWhile_cons_false _ _ (isSpc_false_of_isDig hd)
  have h3 : (d :: ds).takeWhile isDig = d :: ds := takeWhile_all_eq_self _ hall
  unfold pyLongFromString
  simp [h1, h2, h3]
  omega

theorem pyLong_intChars (n : Int) :
    pyLongFromString (intChars n) = some (n, (intChars n).length) := by
  by_cases hneg : n < 0
  · have hic : intChars n = '-' :: natChars n.natAbs := by simp [intChars, hneg]
    rcases hnc : natChars n.natAbs with _ | ⟨d, ds⟩
    · exact absurd hnc (natChars_ne_nil _)
    rw [hic, hnc]
    rw [pyLong_neg_digits d ds (by
      intro c hc
      exact natChars_all_dig _ c (by rw [hnc]; exact hc))]
    have hval : valD (d :: ds) 0 = n.natAbs := by
      have := valD_natChars n.natAbs
      rw [hnc] at this
      exact this
    rw [hval]
    congr 2
    omega
  · have hic : intChars n = natChars n.toNat := by simp [intChars, hneg]
    rcases hnc : natChars n.toNat with _ | ⟨d, ds⟩
    · exact absurd hnc (natChars_ne_nil _)
    rw [hic, hnc]
    rw [pyLong_digits d ds (by
      intro c hc
      exact natChars_all_dig _ c (by rw [hnc]; exact hc))]
    have hval : valD (d :: ds) 0 = n.toNat := by
      have := valD_natChars n.toNat
      rw [hnc] at this
      exact this
    rw [hval]
    congr 2
    omega

/-- The adapter's integer render and parse round-trip. -/
theorem tns_parse_integer_intChars (n : Int) :
    tns_parse_integer (intChars n) = some n := by
  unfold tns_parse_integer
  by_cases h10 : (intChars n).length < 10
  · rw [if_pos h10]
    exact parse_integerSmall_intChars n
  · rw [if_neg h10]
    by_cases h19 : (intChars n).length < 19
    · rw [if_pos h19]
      exact parse_integerSmall_intChars n
    · rw [if_neg h19, pyLong_intChars]
      simp

/-! ## Lemmas: the round trip -/

theorem encV_unfold (v : Value) (rest : List Char) :
    encV v ++ rest =
      natChars (payloadV v).length ++ ':' :: (payloadV v ++ tns_get_type v :: rest) := by
  simp [encV]

theorem encV_len_ge (v : Value) : (payloadV v).length + 3 ≤ (encV v).length := by
  have hnz := natChars_ne_nil (payloadV v).length
  have : 1 ≤ (natChars (payloadV v).length).length := by
    rcases h : natChars (payloadV v).length with _ | ⟨c, cs⟩
    · exact absurd h hnz
    · simp
  simp [encV]
  omega

theorem wfV_list (l : ValueList) (h : wfV (.list l) = true) :
    (encL l).length ≤ TNS_MAX_LENGTH ∧ wfL l = true := by
  simpa [wfV] using h

theorem wfV_dict (d : PairList) (h : wfV (.dict d) = true) :
    (encD d).length ≤ TNS_MAX_LENGTH ∧ wfD d = true := by
  simpa [wfV] using h

theorem wf_payload_le (v : Value) (h : wfV v = true) :
    (payloadV v).length ≤ TNS_MAX_LENGTH := by
  cases v with
  | null => simp [payloadV, TNS_MAX_LENGTH]
  | bool b => cases b <;> simp [payloadV, trueChars, falseChars, TNS_MAX_LENGTH]
  | int n => simpa [wfV, payloadV] using h
  | float t => exact (by simpa [wfV, payloadV] using h : _ ∧ _).2
  | str s => simpa [wfV, payloadV] using h
  | list l => simpa [payloadV] using (wfV_list l h).1
  | dict d => simpa [payloadV] using (wfV_dict d h).1

/-- Parsing framing: on a well-formed frame the parser reads the length,
the colon, the payload and the tag, leaves `rest`, and dispatches. -/
theorem parse_frame (f : Nat) (payload : List Char) (tag : Char) (rest : List Char)
    (hlen : payload.length ≤ TNS_MAX_LENGTH) :
    tnsParseF (f + 1) (natChars payload.length ++ ':' :: (payload ++ tag :: rest)) =
      match tnsParsePayloadF f tag payload with
      | .ok v => .ok (v, rest)
      | .error e => .error e := by
  simp only [tnsParseF]
  rw [strtosz_natChars payload.length ':' (payload ++ tag :: rest) hlen (by decide)]
  dsimp only
  rw [if_pos rfl]
  rw [if_pos (show payload.length < (payload ++ tag :: rest).length by simp)]
  rw [List.take_left, List.drop_left]

theorem rt_all : ∀ f : Nat,
    (∀ (v : Value) (rest : List Char), wfV v = true → (encV v).length + rest.length < f →
      tnsParseF f (encV v ++ rest) = .ok (v, rest)) ∧
    (∀ l : ValueList, wfL l = true → (encL l).length + 1 < f →
      tnsParseListF f (encL l) = some l) ∧
    (∀ d : PairList, wfD d = true → (encD d).length + 1 < f →
      tnsParseDictF f (encD d) = some d) := by
  intro f
  induction f using Nat.strong_induction_on with
  | _ f IH =>
    have hA : ∀ (v : Value) (rest : List Char), wfV v = true →
        (encV v).length + rest.length < f → tnsParseF f (encV v ++ rest) = .ok (v, rest) := by
      intro v rest hwf hlen
      have hge := encV_len_ge v
      have hple := wf_payload_le v hwf
      obtain ⟨f2, rfl⟩ : ∃ f2, f = f2 + 2 := ⟨f - 2, by omega⟩
      rw [show f2 + 2 = (f2 + 1) + 1 from rfl,
        encV_unfold, parse_frame (f2 + 1) (payloadV v) (tns_get_type v) rest hple]
      cases v with
      | null =>
        simp +decide [tnsParsePayloadF, payloadV, tns_get_type]
      | bool b =>
        cases b <;>
          simp +decide [tnsParsePayloadF, payloadV, tns_get_type, trueChars, falseChars]
      | int n =>
        simp +decide [tnsParsePayloadF, payloadV, tns_get_type, tns_parse_integer_intChars]
      | float t =>
        have hsp : strtodSpan t = t.length := by
          have := (by simpa [wfV] using hwf : strtodSpan t = t.length ∧ _)
          exact this.1
        simp +decide [tnsParsePayloadF, payloadV, tns_get_type, tns_parse_float, hsp]
      | str s =>
        simp +decide [tnsParsePayloadF, payloadV, tns_get_type, tns_parse_string]
      | list l =>
        obtain ⟨hmax, hwl⟩ := wfV_list l hwf
        have h1 : (payloadV (Value.list l)).length + 3 ≤ (encV (Value.list l)).length := hge
        simp only [payloadV] at h1
        have hsub := (IH f2 (by omega)).2.1 l hwl (by omega)
        simp +decide [tnsParsePayloadF, payloadV, tns_get_type, hsub]
      | dict d =>
        obtain ⟨hmax, hwd⟩ := wfV_dict d hwf
        have h1 : (payloadV (Value.dict d)).length + 3 ≤ (encV (Value.dict d)).length := hge
        simp only [payloadV] at h1
        have hsub := (IH f2 (by omega)).2.2 d hwd (by omega)
        simp +decide [tnsParsePayloadF, payloadV, tns_get_type, hsub]
    have hB : ∀ l : ValueList, wfL l = true → (encL l).length + 1 < f →
        tnsParseListF f (encL l) = some l := by
      intro l hwf hlen
      cases l with
      | nil => simp [tnsParseListF, encL]
      | cons v tl =>
        rw [encL_cons] at hlen ⊢
        have hwee : wfV v = true ∧ wfL tl = true := by simpa [wfL] using hwf
        have hge := encV_len_ge v
        obtain ⟨f1, rfl⟩ : ∃ f1, f = f1 + 1 := ⟨f - 1, by omega⟩
        rcases henc : encV v with _ | ⟨c, cs⟩
        · rw [henc] at hge
          simp at hge
        · rw [List.cons_append]
          simp only [tnsParseListF]
          rw [← List.cons_append, ← henc]
          rw [(IH f1 (by omega)).1 v (encL tl) hwee.1 (by
            simp only [List.length_append] at hlen
            omega)]
          dsimp only
          have hll : (encL tl).length + 1 < f1 := by
            simp only [List.length_append] at hlen
            omega
          rw [(IH f1 (by omega)).2.1 tl hwee.2 hll]
    refine ⟨hA, hB, ?_⟩
    intro d hwf hlen
    cases d with
    | nil => simp [tnsParseDictF, encD]
    | cons k v tl =>
      rw [encD_cons] at hlen ⊢
      have hwee : wfV k = true ∧ wfV v = true ∧ wfD tl = true := by
        simpa [wfD, and_assoc] using hwf
      have hgek := encV_len_ge k
      have hgev := encV_len_ge v
      obtain ⟨f1, rfl⟩ : ∃ f1, f = f1 + 1 := ⟨f - 1, by omega⟩
      rcases henc : encV k with _ | ⟨c, cs⟩
      · rw [henc] at hgek
        simp at hgek
      · simp only [List.append_assoc, List.cons_append]
        simp only [tnsParseDictF]
        have hp1 : tnsParseF f1 (c :: (cs ++ (encV v ++ encD tl))) =
            .ok (k, encV v ++ encD tl) := by
          rw [← List.cons_append, ← henc]
          exact (IH f1 (by omega)).1 k (encV v ++ encD tl) hwee.1 (by
            simp only [List.length_append] at hlen ⊢
            omega)
        rw [hp1]
        dsimp only
        rw [(IH f1 (by omega)).1 v (encD tl) hwee.2.1 (by
          simp only [List.length_append] at hlen ⊢
          omega)]
        dsimp only
        have hll : (encD tl).length + 1 < f1 := by
          simp only [List.length_append] at hlen
          omega
        rw [(IH f1 (by omega)).2.2 tl hwee.2.2 hll]

theorem isDig_toNat {c : Char} (h : isDig c = true) : 48 ≤ c.toNat ∧ c.toNat ≤ 57 := by
  simp only [isDig, Bool.and_eq_true, decide_eq_true_eq] at h
  exact ⟨h.1, h.2⟩

theorem dval_le_nine {c : Char} (h : isDig c = true) : dval c ≤ 9 := by
  have := isDig_toNat h
  unfold dval
  omega

/-- A length prefix beyond `TNS_MAX_LENGTH` is rejected by `tns_strtosz`,
whatever follows it. -/
theorem strtosz_natChars_overflow (n : Nat) (hgt : TNS_MAX_LENGTH < n) (tail : List Char) :
    tns_strtosz (natChars n ++ tail) = none := by
  rcases hnc : natChars n with _ | ⟨d, ds⟩
  · exact absurd hnc (natChars_ne_nil _)
  have hd : isDig d = true := natChars_all_dig n d (by rw [hnc]; simp)
  have hd0 : d ≠ '0' := natChars_head_ne_zero n (by
    have : TNS_MAX_LENGTH = 999999999 := rfl
    omega) d ds hnc
  simp only [List.cons_append, tns_strtosz]
  rw [if_neg hd0, if_pos hd]
  have hval : valD ds (dval d) = n := by
    have := valD_natChars n
    rw [hnc] at this
    simpa [valD] using this
  have hne : ds ≠ [] := by
    rintro rfl
    simp only [valD] at hval
    have := dval_le_nine hd
    have : TNS_MAX_LENGTH = 999999999 := rfl
    omega
  exact strtoszLoop_overflow ds (dval d) tail hne
    (fun x hx => natChars_all_dig n x (by rw [hnc]; simp [hx])) (by omega)

/-- A frame whose declared length exceeds `TNS_MAX_LENGTH` is rejected by
`tns_parse` with the invalid-length-prefix error. -/
theorem tns_parse_overflow (n : Nat) (hgt : TNS_MAX_LENGTH < n) (tail : List Char) :
    tns_parse (natChars n ++ tail) = .error .badLenPfx := by
  unfold tns_parse
  simp only [tnsParseF, strtosz_natChars_overflow n hgt tail]

/-- The bounded round trip: parsing an encoding (with anything appended)
returns the value and the appended bytes. -/
theorem tns_parse_render (v : Value) (rest : List Char) (hwf : wfV v = true) :
    tns_parse (tns_render v ++ rest) = .ok (v, rest) := by
  unfold tns_parse
  rw [tns_render_eq_encV]
  exact (rt_all ((encV v ++ rest).length + 1)).1 v rest hwf
    (by simp [List.length_append])

/-! ## Lemmas: the two output buffers -/

/-- Well-formedness of a back buffer: the head offset is inside the
allocation, the model list has exactly the allocated length, and the
allocation is nonempty (it starts at 64 and only grows). -/
def InvB (b : BackBuf) : Prop :=
  b.head ≤ b.allocSize ∧ b.buffer.length = b.allocSize ∧ 1 ≤ b.allocSize

/-- The written block of a back buffer (from `head` to the end). -/
def contentB (b : BackBuf) : List Char := b.buffer.drop b.head

/-- Well-formedness of a rev buffer. -/
def InvR (r : RevBuf) : Prop :=
  r.usedSize ≤ r.allocSize ∧ r.buffer.length = r.allocSize ∧ 1 ≤ r.allocSize

/-- The written block of a rev buffer (the first `used_size` bytes, still
in reversed order). -/
def contentR (r : RevBuf) : List Char := r.buffer.take r.usedSize

theorem growSize_ge (target sz : Nat) (hsz : sz ≠ 0) :
    target ≤ growSize target sz ∧ 1 ≤ growSize target sz := by
  unfold growSize
  by_cases hle : target ≤ sz
  · rw [if_pos hle]
    omega
  · rw [if_neg hle, if_neg hsz]
    exact growSize_ge target (sz * 2) (by omega)
termination_by target - sz
decreasing_by
  omega

theorem drop_append_exact (l1 l2 : List Char) (n : Nat) (h : n = l1.length) :
    (l1 ++ l2).drop n = l2 := by
  subst h
  exact List.drop_left l1 l2

theorem take_append_exact (l1 l2 : List Char) (n : Nat) (h : n = l1.length) :
    (l1 ++ l2).take n = l1 := by
  subst h
  exact List.take_left l1 l2

theorem drop_set_head (l : List Char) (p : Nat) (c : Char) (h : p < l.length) :
    (l.set p c).drop p = c :: l.drop (p + 1) := by
  rw [List.drop_set, if_neg (by omega)]
  rw [show p - p = 0 by omega, List.drop_eq_getElem_cons h, List.set_cons_zero]

theorem take_set_last (l : List Char) (p : Nat) (c : Char) (h : p < l.length) :
    (l.set p c).take (p + 1) = l.take p ++ [c] := by
  rw [List.take_succ]
  congr 1
  · rw [List.set_eq_take_cons_drop c h]
    rw [List.take_append_of_le_length (by simp; omega)]
    simp [List.take_take]
  · rw [List.getElem?_set_self h]
    rfl

theorem sizeB_extendB (free : Nat) (b : BackBuf) (hI : InvB b) :
    sizeB (extendB free b) = sizeB b ∧ contentB (extendB free b) = contentB b ∧
    InvB (extendB free b) ∧ free + sizeB b ≤ (extendB free b).allocSize ∧
    (extendB free b).head = (extendB free b).allocSize - sizeB b := by
  obtain ⟨h1, h2, h3⟩ := hI
  have hgrow := growSize_ge (free + sizeB b) (b.allocSize * 2) (by omega)
  have hcl : (contentB b).length = sizeB b := by
    simp [contentB, sizeB, List.length_drop, h2]
  have hbuflen : (extendB free b).buffer.length = (extendB free b).allocSize := by
    simp only [extendB, List.length_append, List.length_replicate]
    have : (b.buffer.drop b.head).length = sizeB b := hcl
    rw [this]
    simp only [sizeB] at hgrow ⊢
    omega
  refine ⟨?_, ?_, ⟨?_, hbuflen, ?_⟩, ?_, ?_⟩
  · simp only [extendB, sizeB]
    simp only [sizeB] at hgrow
    omega
  · simp only [extendB, contentB]
    exact drop_append_exact _ _ _ (by simp)
  · simp only [extendB]
    omega
  · simp only [extendB]
    omega
  · simp only [extendB]
    exact hgrow.1
  · simp only [extendB]

theorem putcB_spec (b : BackBuf) (c : Char) (hI : InvB b) :
    InvB (putcB b c) ∧ contentB (putcB b c) = c :: contentB b ∧
    sizeB (putcB b c) = sizeB b + 1 := by
  have hmain : ∀ b' : BackBuf, InvB b' → 1 ≤ b'.head → contentB b' = contentB b →
      sizeB b' = sizeB b →
      InvB (BackBuf.mk (b'.buffer.set (b'.head - 1) c) (b'.head - 1) b'.allocSize) ∧
      contentB (BackBuf.mk (b'.buffer.set (b'.head - 1) c) (b'.head - 1) b'.allocSize) =
        c :: contentB b ∧
      sizeB (BackBuf.mk (b'.buffer.set (b'.head - 1) c) (b'.head - 1) b'.allocSize) =
        sizeB b + 1 := by
    intro b' ⟨e1, e2, e3⟩ hh1 hct hsz
    have hhlt : b'.head - 1 < b'.buffer.length := by omega
    refine ⟨⟨by simp; omega, by simp [e2], by simp; omega⟩, ?_, ?_⟩
    · simp only [contentB]
      rw [drop_set_head _ _ _ hhlt, show b'.head - 1 + 1 = b'.head by omega]
      exact congrArg (c :: ·) hct
    · simp only [sizeB] at hsz ⊢
      omega
  unfold putcB
  by_cases hz : b.head = 0
  · rw [if_pos hz]
    obtain ⟨hsz, hct, hInv, hfree, hhead⟩ := sizeB_extendB 1 b hI
    exact hmain (extendB 1 b) hInv (by
      simp only [sizeB] at hsz hfree
      omega) hct hsz
  · rw [if_neg hz]
    exact hmain b hI (by omega) rfl rfl

theorem putsB_spec (b : BackBuf) (s : List Char) (hI : InvB b) :
    InvB (putsB b s) ∧ contentB (putsB b s) = s ++ contentB b ∧
    sizeB (putsB b s) = sizeB b + s.length := by
  have hmain : ∀ b' : BackBuf, InvB b' → s.length ≤ b'.head → contentB b' = contentB b →
      sizeB b' = sizeB b →
      InvB (BackBuf.mk (writeAt b'.buffer (b'.head - s.length) s) (b'.head - s.length)
        b'.allocSize) ∧
      contentB (BackBuf.mk (writeAt b'.buffer (b'.head - s.length) s) (b'.head - s.length)
        b'.allocSize) = s ++ contentB b ∧
      sizeB (BackBuf.mk (writeAt b'.buffer (b'.head - s.length) s) (b'.head - s.length)
        b'.allocSize) = sizeB b + s.length := by
    intro b' ⟨e1, e2, e3⟩ hsle hct hsz
    have htl : (b'.buffer.take (b'.head - s.length)).length = b'.head - s.length := by
      simp
      omega
    have hwl : (writeAt b'.buffer (b'.head - s.length) s).length = b'.buffer.length := by
      simp only [writeAt, List.length_append, List.length_drop, htl]
      omega
    refine ⟨⟨by simp; omega, by simp [hwl, e2], by simp; omega⟩, ?_, ?_⟩
    · simp only [contentB, writeAt]
      rw [List.append_assoc, drop_append_exact _ _ _ htl.symm]
      rw [show b'.head - s.length + s.length = b'.head by omega]
      exact congrArg (s ++ ·) hct
    · simp only [sizeB] at hsz ⊢
      omega
  unfold putsB
  by_cases hz : b.head < s.length
  · rw [if_pos hz]
    obtain ⟨hsz, hct, hInv, hfree, hhead⟩ := sizeB_extendB s.length b hI
    exact hmain (extendB s.length b) hInv (by
      simp only [sizeB] at hsz hfree
      omega) hct hsz
  · rw [if_neg hz]
    exact hmain b hI (by omega) rfl rfl

theorem itoaB_spec (n : Nat) : ∀ (b : BackBuf), InvB b →
    InvB (itoaB b n) ∧ contentB (itoaB b n) = natChars n ++ contentB b ∧
    sizeB (itoaB b n) = sizeB b + (natChars n).length := by
  induction n using Nat.strong_induction_on with
  | _ n IH =>
    intro b hI
    obtain ⟨hI1, hct1, hsz1⟩ := putcB_spec b (digCh n) hI
    rw [itoaB]
    by_cases h10 : n / 10 = 0
    · rw [if_pos h10]
      have hnc : natChars n = [digCh n] := by
        rw [natChars_eq, if_pos (by omega : n < 10)]
      rw [hnc]
      exact ⟨hI1, by simpa using hct1, by simpa using hsz1⟩
    · rw [if_neg h10]
      have hlt : n / 10 < n := Nat.div_lt_self (by omega) (by omega)
      obtain ⟨hI2, hct2, hsz2⟩ := IH (n / 10) hlt (putcB b (digCh n)) hI1
      have hnc : natChars n = natChars (n / 10) ++ [digCh n] := by
        rw [natChars_eq, if_neg (by
          intro hcon
          exact h10 (Nat.div_eq_of_lt hcon))]
      refine ⟨hI2, ?_, ?_⟩
      · rw [hct2, hct1, hnc]
        simp
      · rw [hsz2, hsz1, hnc]
        simp
        omega

theorem clampB_spec (b : BackBuf) (orig : Nat) (hI : InvB b) :
    InvB (clampB b orig) ∧
    contentB (clampB b orig) = natChars (sizeB b - orig) ++ ':' :: contentB b ∧
    sizeB (clampB b orig) = sizeB b + 1 + (natChars (sizeB b - orig)).length := by
  unfold clampB
  obtain ⟨hI1, hct1, hsz1⟩ := putcB_spec b ':' hI
  obtain ⟨hI2, hct2, hsz2⟩ := itoaB_spec (sizeB b - orig) (putcB b ':') hI1
  exact ⟨hI2, by rw [hct2, hct1], by rw [hsz2, hsz1]⟩

theorem growSize_ge_sz (target sz : Nat) : sz ≤ growSize target sz := by
  unfold growSize
  by_cases hle : target ≤ sz
  · rw [if_pos hle]
  · rw [if_neg hle]
    by_cases hsz : sz = 0
    · rw [if_pos hsz]
      omega
    · rw [if_neg hsz]
      have := growSize_ge_sz target (sz * 2)
      omega
termination_by target - sz
decreasing_by
  omega

theorem sizeR_extendR (free : Nat) (r : RevBuf) (hI : InvR r) :
    sizeR (extendR free r) = sizeR r ∧ contentR (extendR free r) = contentR r ∧
    InvR (extendR free r) ∧ free + sizeR r ≤ (extendR free r).allocSize := by
  obtain ⟨h1, h2, h3⟩ := hI
  have hgrow := growSize_ge (free + r.usedSize) (r.allocSize * 2) (by omega)
  have hgsz := growSize_ge_sz (free + r.usedSize) (r.allocSize * 2)
  refine ⟨rfl, ?_, ⟨?_, ?_, ?_⟩, ?_⟩
  · simp only [extendR, contentR]
    exact List.take_append_of_le_length (by omega)
  · simp only [extendR, sizeR]
    omega
  · simp only [extendR, List.length_append, List.length_replicate]
    omega
  · simp only [extendR]
    omega
  · simp only [extendR, sizeR]
    exact hgrow.1

theorem putcR_spec (r : RevBuf) (c : Char) (hI : InvR r) :
    InvR (putcR r c) ∧ contentR (putcR r c) = contentR r ++ [c] ∧
    sizeR (putcR r c) = sizeR r + 1 := by
  have hmain : ∀ r' : RevBuf, InvR r' → r'.usedSize < r'.allocSize →
      contentR r' = contentR r → sizeR r' = sizeR r →
      InvR (RevBuf.mk (r'.buffer.set r'.usedSize c) (r'.usedSize + 1) r'.allocSize) ∧
      contentR (RevBuf.mk (r'.buffer.set r'.usedSize c) (r'.usedSize + 1) r'.allocSize) =
        contentR r ++ [c] ∧
      sizeR (RevBuf.mk (r'.buffer.set r'.usedSize c) (r'.usedSize + 1) r'.allocSize) =
        sizeR r + 1 := by
    intro r' ⟨e1, e2, e3⟩ hlt hct hsz
    have hult : r'.usedSize < r'.buffer.length := by omega
    refine ⟨⟨by simp; omega, by simp [e2], by simp; omega⟩, ?_, ?_⟩
    · simp only [contentR]
      rw [take_set_last _ _ _ hult]
      exact congrArg (fun l => l ++ [c]) hct
    · simp only [sizeR] at hsz ⊢
      omega
  unfold putcR
  by_cases hz : r.allocSize = r.usedSize
  · rw [if_pos hz]
    obtain ⟨hsz, hct, hInv, hfree⟩ := sizeR_extendR 1 r hI
    exact hmain (extendR 1 r) hInv (by
      simp only [sizeR] at hsz hfree
      omega) hct hsz
  · rw [if_neg hz]
    exact hmain r hI (by
      obtain ⟨e1, _, _⟩ := hI
      omega) rfl rfl

theorem putsR_spec (r : RevBuf) (s : List Char) (hI : InvR r) :
    InvR (putsR r s) ∧ contentR (putsR r s) = contentR r ++ s.reverse ∧
    sizeR (putsR r s) = sizeR r + s.length := by
  have hmain : ∀ r' : RevBuf, InvR r' → r'.usedSize + s.length ≤ r'.allocSize →
      contentR r' = contentR r → sizeR r' = sizeR r →
      InvR (RevBuf.mk (writeAt r'.buffer r'.usedSize s.reverse) (r'.usedSize + s.length)
        r'.allocSize) ∧
      contentR (RevBuf.mk (writeAt r'.buffer r'.usedSize s.reverse) (r'.usedSize + s.length)
        r'.allocSize) = contentR r ++ s.reverse ∧
      sizeR (RevBuf.mk (writeAt r'.buffer r'.usedSize s.reverse) (r'.usedSize + s.length)
        r'.allocSize) = sizeR r + s.length := by
    intro r' ⟨e1, e2, e3⟩ hfit hct hsz
    have htl : (r'.buffer.take r'.usedSize).length = r'.usedSize := by
      simp
      omega
    have hwl : (writeAt r'.buffer r'.usedSize s.reverse).length = r'.buffer.length := by
      simp only [writeAt, List.length_append, List.length_drop, List.length_reverse, htl]
      omega
    refine ⟨⟨by simp; omega, by simp [hwl, e2], by simp; omega⟩, ?_, ?_⟩
    · simp only [contentR, writeAt]
      rw [take_append_exact _ _ _ (by
        simp only [List.length_append, List.length_reverse, htl])]
      exact congrArg (fun l => l ++ s.reverse) hct
    · simp only [sizeR] at hsz ⊢
      omega
  unfold putsR
  by_cases hz : r.allocSize - r.usedSize < s.length
  · rw [if_pos hz]
    obtain ⟨hsz, hct, hInv, hfree⟩ := sizeR_extendR s.length r hI
    exact hmain (extendR s.length r) hInv (by
      simp only [sizeR] at hsz hfree
      omega) hct hsz
  · rw [if_neg hz]
    exact hmain r hI (by
      obtain ⟨e1, _, _⟩ := hI
      omega) rfl rfl

theorem itoaR_spec (n : Nat) : ∀ (r : RevBuf), InvR r →
    InvR (itoaR r n) ∧ contentR (itoaR r n) = contentR r ++ (natChars n).reverse ∧
    sizeR (itoaR r n) = sizeR r + (natChars n).length := by
  induction n using Nat.strong_induction_on with
  | _ n IH =>
    intro r hI
    obtain ⟨hI1, hct1, hsz1⟩ := putcR_spec r (digCh n) hI
    rw [itoaR]
    by_cases h10 : n / 10 = 0
    · rw [if_pos h10]
      have hnc : natChars n = [digCh n] := by
        rw [natChars_eq, if_pos (by omega : n < 10)]
      rw [hnc]
      exact ⟨hI1, by simpa using hct1, by simpa using hsz1⟩
    · rw [if_neg h10]
      have hlt : n / 10 < n := Nat.div_lt_self (by omega) (by omega)
      obtain ⟨hI2, hct2, hsz2⟩ := IH (n / 10) hlt (putcR r (digCh n)) hI1
      have hnc : natChars n = natChars (n / 10) ++ [digCh n] := by
        rw [natChars_eq, if_neg (by
          intro hcon
          exact h10 (Nat.div_eq_of_lt hcon))]
      refine ⟨hI2, ?_, ?_⟩
      · rw [hct2, hct1, hnc]
        simp
      · rw [hsz2, hsz1, hnc]
        simp
        omega

theorem clampR_spec (r : RevBuf) (orig : Nat) (hI : InvR r) :
    InvR (clampR r orig) ∧
    contentR (clampR r orig) = contentR r ++ ':' :: (natChars (sizeR r - orig)).reverse ∧
    sizeR (clampR r orig) = sizeR r + 1 + (natChars (sizeR r - orig)).length := by
  unfold clampR
  obtain ⟨hI1, hct1, hsz1⟩ := putcR_spec r ':' hI
  obtain ⟨hI2, hct2, hsz2⟩ := itoaR_spec (sizeR r - orig) (putcR r ':') hI1
  refine ⟨hI2, ?_, by rw [hsz2, hsz1]⟩
  rw [hct2, hct1]
  simp

theorem initB_ok : InvB initB ∧ contentB initB = [] := by
  refine ⟨⟨by decide, by decide, by decide⟩, by decide⟩

theorem initR_ok : InvR initR ∧ contentR initR = [] := by
  refine ⟨⟨by decide, by decide, by decide⟩, by decide⟩

theorem sizeB_initB : sizeB initB = 0 := by decide

theorem sizeR_initR : sizeR initR = 0 := by decide

/-- One step of the back/rev simulation: any one call preserves the
invariants, keeps sizes equal, and keeps the back content the reverse of
the rev content. -/
theorem stepO_sim (op : OutOp) (b : BackBuf) (r : RevBuf)
    (hB : InvB b) (hR : InvR r) (hsz : sizeB b = sizeR r)
    (hct : contentB b = (contentR r).reverse) :
    InvB (stepOB b op) ∧ InvR (stepOR r op) ∧
    sizeB (stepOB b op) = sizeR (stepOR r op) ∧
    contentB (stepOB b op) = (contentR (stepOR r op)).reverse := by
  cases op with
  | putc c =>
    obtain ⟨hB1, hBc, hBs⟩ := putcB_spec b c hB
    obtain ⟨hR1, hRc, hRs⟩ := putcR_spec r c hR
    exact ⟨hB1, hR1, by simp [stepOB, stepOR, hBs, hRs, hsz],
      by simp [stepOB, stepOR, hBc, hRc, hct]⟩
  | puts s =>
    obtain ⟨hB1, hBc, hBs⟩ := putsB_spec b s hB
    obtain ⟨hR1, hRc, hRs⟩ := putsR_spec r s hR
    exact ⟨hB1, hR1, by simp [stepOB, stepOR, hBs, hRs, hsz],
      by simp [stepOB, stepOR, hBc, hRc, hct]⟩
  | clamp orig =>
    obtain ⟨hB1, hBc, hBs⟩ := clampB_spec b orig hB
    obtain ⟨hR1, hRc, hRs⟩ := clampR_spec r orig hR
    refine ⟨hB1, hR1, by simp [stepOB, stepOR, hBs, hRs, hsz], ?_⟩
    simp only [stepOB, stepOR, hBc, hRc, hct, hsz]
    simp

/-- The simulation carried over a whole call sequence, from any pair of
related states. -/
theorem foldO_sim (ops : List OutOp) : ∀ (b : BackBuf) (r : RevBuf),
    InvB b → InvR r → sizeB b = sizeR r → contentB b = (contentR r).reverse →
    InvB (ops.foldl stepOB b) ∧ InvR (ops.foldl stepOR r) ∧
    sizeB (ops.foldl stepOB b) = sizeR (ops.foldl stepOR r) ∧
    contentB (ops.foldl stepOB b) = (contentR (ops.foldl stepOR r)).reverse := by
  induction ops with
  | nil => intro b r hB hR hsz hct; exact ⟨hB, hR, hsz, hct⟩
  | cons op ops IH =>
    intro b r hB hR hsz hct
    obtain ⟨hB1, hR1, hsz1, hct1⟩ := stepO_sim op b r hB hR hsz hct
    simpa using IH (stepOB b op) (stepOR r op) hB1 hR1 hsz1 hct1

theorem runO_sim (ops : List OutOp) :
    InvB (runOB ops) ∧ InvR (runOR ops) ∧
    sizeB (runOB ops) = sizeR (runOR ops) ∧
    contentB (runOB ops) = (contentR (runOR ops)).reverse := by
  have h := foldO_sim ops initB initR initB_ok.1 initR_ok.1
    (by rw [sizeB_initB, sizeR_initR]) (by rw [initB_ok.2, initR_ok.2]; rfl)
  exact h

/-- One `PutOp` prepends its chunk to the back buffer's content. -/
theorem stepPB_content (op : PutOp) (b : BackBuf) (hI : InvB b) :
    InvB (stepPB b op) ∧ contentB (stepPB b op) = chunkOf op ++ contentB b := by
  cases op with
  | putc c =>
    obtain ⟨h1, h2, _⟩ := putcB_spec b c hI
    exact ⟨h1, by simpa [stepPB, chunkOf] using h2⟩
  | puts s =>
    obtain ⟨h1, h2, _⟩ := putsB_spec b s hI
    exact ⟨h1, by simpa [stepPB, chunkOf] using h2⟩

/-- Over a whole `PutOp` sequence the back buffer accumulates the chunks in
reverse call order. -/
theorem foldPB_content (ops : List PutOp) : ∀ (b : BackBuf), InvB b →
    InvB (ops.foldl stepPB b) ∧
    contentB (ops.foldl stepPB b) =
      ((ops.map chunkOf).reverse).flatten ++ contentB b := by
  induction ops with
  | nil => intro b hI; exact ⟨hI, by simp⟩
  | cons op ops IH =>
    intro b hI
    obtain ⟨h1, h2⟩ := stepPB_content op b hI
    obtain ⟨h3, h4⟩ := IH (stepPB b op) h1
    refine ⟨by simpa using h3, ?_⟩
    simp only [List.foldl_cons] at h4 ⊢
    rw [h4, h2]
    simp

theorem runPB_content (ops : List PutOp) :
    (finalizeB (runPB ops)).1 = ((ops.map chunkOf).reverse).flatten := by
  obtain ⟨_, h⟩ := foldPB_content ops initB initB_ok.1
  show contentB (runPB ops) = _
  rw [runPB, h, initB_ok.2, List.append_nil]

/-! ## The integer grammar, declaratively (spec side, amended) -/

/--
The amended integer grammar, written from the spec's words with the one
correction the code forces: an optional single leading `'+'` or `'-'`,
then a run of ASCII digits — which the hand-rolled parser allows to be
*empty*, a lone sign yielding `0`.  Everything else (whitespace included)
is rejected.  Compared below with `tns_parse_integerSmall`, the code's
hand-rolled path.
-/
def intGrammarSmall (s : List Char) : Option Int :=
  match s with
  | [] => none
  | c :: rest =>
    if isDig c then
      if rest.all isDig then some ((valD (c :: rest) 0 : Nat) : Int) else none
    else if c = '+' then
      if rest.all isDig then some ((valD rest 0 : Nat) : Int) else none
    else if c = '-' then
      if rest.all isDig then some (-((valD rest 0 : Nat) : Int)) else none
    else none

theorem integerLoop_char (sign : Int) (rest : List Char) : ∀ acc : Nat,
    tns_parse_integerLoop sign (acc : Int) rest =
      if rest.all isDig then some (((valD rest acc : Nat) : Int) * sign) else none := by
  induction rest with
  | nil => intro acc; simp [tns_parse_integerLoop, valD]
  | cons c cs ih =>
    intro acc
    by_cases hd : isDig c
    · simp only [tns_parse_integerLoop, hd, if_true]
      have hcast : (acc : Int) * 10 + (dval c : Int) = ((acc * 10 + dval c : Nat) : Int) := by
        push_cast
        ring
      rw [hcast, ih (acc * 10 + dval c)]
      simp [List.all_cons, hd, valD]
    · simp only [tns_parse_integerLoop, hd, if_false, List.all_cons,
        Bool.false_and, Bool.and_eq_true]
      simp [hd]

theorem integerSmall_eq_grammar (s : List Char) :
    tns_parse_integerSmall s = intGrammarSmall s := by
  match s with
  | [] => rfl
  | c :: rest =>
    simp only [tns_parse_integerSmall, intGrammarSmall]
    by_cases hd : isDig c
    · rw [if_pos hd, if_pos hd]
      have := integerLoop_char 1 rest (dval c)
      rw [this]
      by_cases hall : rest.all isDig
      · rw [if_pos hall, if_pos hall]
        simp [valD]
      · rw [if_neg hall, if_neg hall]
    · rw [if_neg hd, if_neg hd]
      by_cases hp : c = '+'
      · rw [if_pos hp, if_pos hp]
        have := integerLoop_char 1 rest 0
        simp only [Nat.cast_zero] at this
        rw [this]
        by_cases hall : rest.all isDig
        · rw [if_pos hall, if_pos hall]
          simp
        · rw [if_neg hall, if_neg hall]
      · rw [if_neg hp, if_neg hp]
        by_cases hm : c = '-'
        · rw [if_pos hm, if_pos hm]
          have := integerLoop_char (-1) rest 0
          simp only [Nat.cast_zero] at this
          rw [this]
          by_cases hall : rest.all isDig
          · rw [if_pos hall, if_pos hall]
            simp
          · rw [if_neg hall, if_neg hall]
        · rw [if_neg hm, if_neg hm]

/-! ## Lemmas: the strtod span never passes the end of the input -/

theorem takeWhile_len_le (p : Char → Bool) (l : List Char) :
    (l.takeWhile p).length ≤ l.length := by
  induction l with
  | nil => simp
  | cons a l ih =>
    by_cases h : p a
    · simp [List.takeWhile_cons, h]
      omega
    · simp [List.takeWhile_cons, h]

theorem head_some_len (l : List Char) (x : Char) (h : l.head? = some x) :
    1 ≤ l.length := by
  cases l <;> simp_all

theorem matchCI_le (w : List Char) : ∀ s : List Char, matchCI w s = true →
    w.length ≤ s.length := by
  induction w with
  | nil => intro s _; simp
  | cons a w ih =>
    intro s h
    match s with
    | [] => simp [matchCI] at h
    | c :: s' =>
      simp only [matchCI, Bool.and_eq_true] at h
      have := ih s' h.2
      simp only [List.length_cons]
      omega

theorem expPartLen_le (eLo eHi : Char) (s : List Char) :
    expPartLen eLo eHi s ≤ s.length := by
  match s with
  | [] => simp [expPartLen]
  | c :: r =>
    simp only [expPartLen]
    by_cases hce : c = eLo ∨ c = eHi
    · rw [if_pos hce]
      by_cases hs : r.head? = some '+' ∨ r.head? = some '-'
      · simp only [if_pos hs]
        split
        · simp
        · have hd := takeWhile_len_le isDig (r.drop 1)
          simp only [List.length_drop] at hd
          have hr : 1 ≤ r.length := by
            rcases hs with h | h
            · exact head_some_len r '+' h
            · exact head_some_len r '-' h
          simp only [List.length_cons]
          omega
      · simp only [if_neg hs]
        split
        · simp
        · have hd := takeWhile_len_le isDig (r.drop 0)
          simp only [List.length_drop] at hd
          simp only [List.length_cons]
          omega
    · rw [if_neg hce]
      simp

theorem frac_tail_le (dig : Char → Bool) (eLo eHi : Char) (b1 : List Char) :
    (if b1.head? = some '.' then 1 else 0)
      + ((b1.drop (if b1.head? = some '.' then 1 else 0)).takeWhile dig).length
      + expPartLen eLo eHi (b1.drop ((if b1.head? = some '.' then 1 else 0)
          + ((b1.drop (if b1.head? = some '.' then 1 else 0)).takeWhile dig).length))
      ≤ b1.length := by
  by_cases hpt : b1.head? = some '.'
  · simp only [if_pos hpt]
    have hb := takeWhile_len_le dig (b1.drop 1)
    have he := expPartLen_le eLo eHi
      (b1.drop (1 + ((b1.drop 1).takeWhile dig).length))
    have h1 : 1 ≤ b1.length := head_some_len b1 '.' hpt
    simp only [List.length_drop] at hb he
    omega
  · simp only [if_neg hpt]
    have hb := takeWhile_len_le dig (b1.drop 0)
    have he := expPartLen_le eLo eHi
      (b1.drop (0 + ((b1.drop 0).takeWhile dig).length))
    simp only [List.length_drop] at hb he
    omega

theorem strtodCoreLen_le (s : List Char) (n : Nat) (h : strtodCoreLen s = some n) :
    n ≤ s.length := by
  unfold strtodCoreLen at h
  split at h
  next h8 =>
    cases h
    exact matchCI_le _ s h8
  next h8 =>
    split at h
    next h3 =>
      cases h
      exact matchCI_le _ s h3
    next h3 =>
      split at h
      next hnan =>
        split at h
        next hparen =>
          dsimp only at h
          split at h
          next hclose =>
            cases h
            have h4 : 1 ≤ (s.drop 3).length := head_some_len _ '(' hparen
            have h5 : 1 ≤ ((s.drop 4).drop
                ((s.drop 4).takeWhile isNanCh).length).length :=
              head_some_len _ ')' hclose
            have h6 := takeWhile_len_le isNanCh (s.drop 4)
            simp only [List.length_drop] at h4 h5 h6 ⊢
            omega
          next =>
            cases h
            have := matchCI_le ['n', 'a', 'n'] s hnan
            simpa using this
        next =>
          cases h
          have := matchCI_le ['n', 'a', 'n'] s hnan
          simpa using this
      next hnan =>
        dsimp only at h
        split at h
        next hhex =>
          have h2 : 2 ≤ s.length := by
            rcases (by simpa using hhex : s.take 2 = ['0', 'x'] ∨
                s.take 2 = ['0', 'X']) with ht2 | ht2 <;>
            · have := congrArg List.length ht2
              simp only [List.length_take] at this
              simp at this
              omega
          split at h
          next hpt =>
            split at h
            next =>
              cases h
              omega
            next =>
              cases h
              have ha := takeWhile_len_le isHexDig (s.drop 2)
              have ht := frac_tail_le isHexDig 'p' 'P'
                ((s.drop 2).drop ((s.drop 2).takeWhile isHexDig).length)
              simp only [if_pos hpt] at ht
              simp only [List.length_drop] at ha ht ⊢
              omega
          next hpt =>
            split at h
            next =>
              cases h
              omega
            next =>
              cases h
              have ha := takeWhile_len_le isHexDig (s.drop 2)
              have ht := frac_tail_le isHexDig 'p' 'P'
                ((s.drop 2).drop ((s.drop 2).takeWhile isHexDig).length)
              simp only [if_neg hpt] at ht
              simp only [List.length_drop] at ha ht ⊢
              omega
        next hhex =>
          split at h
          next hpt =>
            split at h
            next =>
              cases h
            next =>
              cases h
              have ha := takeWhile_len_le isDig s
              have ht := frac_tail_le isDig 'e' 'E'
                (s.drop (s.takeWhile isDig).length)
              simp only [if_pos hpt] at ht
              simp only [List.length_drop] at ha ht ⊢
              omega
          next hpt =>
            split at h
            next =>
              cases h
            next =>
              cases h
              have ha := takeWhile_len_le isDig s
              have ht := frac_tail_le isDig 'e' 'E'
                (s.drop (s.takeWhile isDig).length)
              simp only [if_neg hpt] at ht
              simp only [List.length_drop] at ha ht ⊢
              omega

theorem strtodSpan_le (s : List Char) : strtodSpan s ≤ s.length := by
  unfold strtodSpan
  dsimp only
  by_cases hs : (s.drop (s.takeWhile isSpc).length).head? = some '+' ∨
      (s.drop (s.takeWhile isSpc).length).head? = some '-'
  · simp only [if_pos hs]
    split
    next n hcore =>
      have hn := strtodCoreLen_le _ _ hcore
      have hw := takeWhile_len_le isSpc s
      have h1 : 1 ≤ (s.drop (s.takeWhile isSpc).length).length := by
        rcases hs with h | h
        · exact head_some_len _ '+' h
        · exact head_some_len _ '-' h
      simp only [List.length_drop] at hn h1
      omega
    next => simp
  · simp only [if_neg hs]
    split
    next n hcore =>
      have hn := strtodCoreLen_le _ _ hcore
      have hw := takeWhile_len_le isSpc s
      simp only [List.length_drop] at hn
      omega
    next => simp

theorem strtodSpan_space (s : List Char) (h0 : strtodSpan s ≠ 0) :
    strtodSpan (' ' :: s) = strtodSpan s + 1 := by
  have hsp : isSpc ' ' = true := by decide
  unfold strtodSpan at h0 ⊢
  dsimp only at h0 ⊢
  simp only [List.takeWhile_cons_of_pos hsp, List.length_cons, List.drop_succ_cons]
  split
  next n heq => omega
  next heq =>
    rw [heq] at h0
    simp at h0

/-! ## Lemmas: the instrumented parser's reads -/

theorem strtoszMemLoop_reads_mono (mem : Nat → Char) (eod : Nat) : ∀ (fuel value pos : Nat)
    (reads : List Nat) (x : Nat), x ∈ reads →
    x ∈ (strtoszMemLoop mem eod fuel value pos reads).2 := by
  intro fuel
  induction fuel with
  | zero =>
    intro value pos reads x hx
    simpa [strtoszMemLoop] using hx
  | succ fuel ih =>
    intro value pos reads x hx
    simp only [strtoszMemLoop]
    by_cases h1 : pos < eod
    · rw [if_pos h1]
      by_cases h2 : isDig (mem pos)
      · rw [if_pos h2]
        by_cases h3 : value * 10 + dval (mem pos) ≤ TNS_MAX_LENGTH
        · rw [if_pos h3]
          exact ih _ (pos + 1) _ x (by simp [hx])
        · rw [if_neg h3]
          simp [hx]
      · rw [if_neg h2]
        simp [hx]
    · rw [if_neg h1]
      exact hx

theorem parseMemReads_zero (mem : Nat → Char) (len : Nat) :
    0 ∈ tns_parseMemReads mem len := by
  unfold tns_parseMemReads tns_strtoszMem
  dsimp only
  by_cases h0 : mem 0 = '0'
  · rw [if_pos h0]
    dsimp only
    split
    · split <;> simp
    · simp
  · rw [if_neg h0]
    by_cases hd : isDig (mem 0)
    · rw [if_pos hd]
      have hm := strtoszMemLoop_reads_mono mem len len (dval (mem 0)) 1 [0] 0 (by simp)
      rcases hres : strtoszMemLoop mem len len (dval (mem 0)) 1 [0] with ⟨o, rd⟩
      rw [hres] at hm
      simp only at hm
      rcases o with _ | ⟨sz, ndig⟩
      · exact hm
      · dsimp only
        split
        · split
          · simp [hm]
          · simp [hm]
        · simp [hm]
    · rw [if_neg hd]
      simp

/-! ## The claims -/

/--
Claim C1 (corrected).  Round-trip: for every representable value `v` that
satisfies the parser's length bound at every node (`wfV v` — every payload
at most `TNS_MAX_LENGTH = 999,999,999` bytes and float texts that strtod
consumes whole), `tns_parse (tns_render v)` succeeds and returns exactly
`v` with nothing remaining; structural equality of the mutual `Value`
inductive preserves list order and dict key/value pairing.  The bound is
needed: a value with a longer payload renders fine but fails to parse
back (see the counterexample), so the claim as stated is corrected.
-/
theorem C1_roundtrip (v : Value) (hwf : wfV v = true) :
    tns_parse (tns_render v) = .ok (v, []) := by
  have h := tns_parse_render v [] hwf
  simpa using h

/-- The C1 counterexample: a 10^9-byte string renders, but its encoding's
length prefix exceeds `TNS_MAX_LENGTH`, so decoding the encoding fails. -/
theorem C1_counterexample :
    tns_parse (tns_render (Value.str (List.replicate 1000000000 'a'))) =
      .error .badLenPfx ∧
    (Except.error ParseErr.badLenPfx : Except ParseErr (Value × List Char)) ≠
      .ok (Value.str (List.replicate 1000000000 'a'), []) := by
  constructor
  · rw [tns_render_eq_encV]
    have hp : payloadV (Value.str (List.replicate 1000000000 'a')) =
        List.replicate 1000000000 'a' := rfl
    simp only [encV, hp, List.length_replicate]
    exact tns_parse_overflow 1000000000 (by decide) _
  · intro h
    exact Except.noConfusion h

/-- C1 at a concrete nested value, hypotheses discharged by computation. -/
theorem C1_witness :
    wfV (Value.dict (PairList.cons (Value.str ['k'])
      (Value.list (ValueList.cons (Value.int (-5)) (ValueList.cons (Value.bool true)
        (ValueList.cons (Value.float ['1', '.', '5'])
          (ValueList.cons Value.null ValueList.nil))))) PairList.nil)) = true ∧
    tns_parse (tns_render (Value.dict (PairList.cons (Value.str ['k'])
      (Value.list (ValueList.cons (Value.int (-5)) (ValueList.cons (Value.bool true)
        (ValueList.cons (Value.float ['1', '.', '5'])
          (ValueList.cons Value.null ValueList.nil))))) PairList.nil))) =
      .ok (Value.dict (PairList.cons (Value.str ['k'])
        (Value.list (ValueList.cons (Value.int (-5)) (ValueList.cons (Value.bool true)
          (ValueList.cons (Value.float ['1', '.', '5'])
            (ValueList.cons Value.null ValueList.nil))))) PairList.nil), []) :=
  ⟨by decide, C1_roundtrip _ (by decide)⟩

/--
Claim C2 (corrected).  Prefix decoding: for length-bounded `v` (`wfV v`,
needed as in C1) and any `w`, parsing `encode v ++ encode w` returns
exactly `(v, encode w)`, and the remain output is the slice of the input
after `encode v` — the byte right after the parsed value's type tag.  In
general every successful parse's remain output is the input's suffix
starting at least three bytes in (prefix digit, colon and tag are always
consumed) and at most at the end.
-/
theorem C2_decode_pop (v w : Value) (hv : wfV v = true) :
    tns_parse (tns_render v ++ tns_render w) = .ok (v, tns_render w) ∧
    tns_render w = (tns_render v ++ tns_render w).drop (tns_render v).length ∧
    (∀ (data : List Char) (u : Value) (rem : List Char),
      tns_parse data = .ok (u, rem) →
      ∃ k, 3 ≤ k ∧ k ≤ data.length ∧ rem = data.drop k) := by
  refine ⟨tns_parse_render v (tns_render w) hv, ?_, ?_⟩
  · exact (drop_append_exact _ _ _ rfl).symm
  · intro data u rem h
    exact tnsParseF_consume (data.length + 1) data u rem h

/-- The C2 counterexample: with an over-long first value the concatenation
fails to parse at all, so the pop returns no pair. -/
theorem C2_counterexample :
    tns_parse (tns_render (Value.str (List.replicate 1000000000 'a')) ++
        tns_render Value.null) = .error .badLenPfx ∧
    (Except.error ParseErr.badLenPfx : Except ParseErr (Value × List Char)) ≠
      .ok (Value.str (List.replicate 1000000000 'a'), tns_render Value.null) := by
  constructor
  · rw [tns_render_eq_encV (Value.str (List.replicate 1000000000 'a')), encV_unfold]
    have hp : payloadV (Value.str (List.replicate 1000000000 'a')) =
        List.replicate 1000000000 'a' := rfl
    simp only [hp, List.length_replicate]
    exact tns_parse_overflow 1000000000 (by decide) _
  · intro h
    exact Except.noConfusion h

/-- C2 at concrete values, hypotheses discharged by computation. -/
theorem C2_witness :
    wfV (Value.int 1) = true ∧
    tns_parse (tns_render (Value.int 1) ++ tns_render Value.null) =
      .ok (Value.int 1, tns_render Value.null) :=
  ⟨by decide, (C2_decode_pop (Value.int 1) Value.null (by decide)).1⟩

/--
Claim C3 (corrected).  The framing failures: no digit at the head, a
leading zero followed by a digit, an accumulated length over
`TNS_MAX_LENGTH = 999,999,999`, a non-colon byte after the digits, and a
payload shorter than `length + 1` bytes after the colon (for example
`"5:hello"`, missing its tag byte) all make `tns_parse` fail producing no
value — but all through the SAME `InvalidLengthPrefix` error
(`ParseErr.badLenPfx`, the C's one "invalid length prefix" message for
all three framing checks): there is no distinct `TruncatedInput` error,
which is the correction (see the counterexample).
-/
theorem C3_framing_errors :
    (∀ (c : Char) (cs : List Char), isDig c = false →
      tns_parse (c :: cs) = .error .badLenPfx) ∧
    (∀ (d : Char) (rest : List Char), isDig d = true →
      tns_parse ('0' :: d :: rest) = .error .badLenPfx) ∧
    (∀ (n : Nat) (tail : List Char), TNS_MAX_LENGTH < n →
      tns_parse (natChars n ++ tail) = .error .badLenPfx) ∧
    (∀ (n : Nat) (c : Char) (rest : List Char), n ≤ TNS_MAX_LENGTH →
      isDig c = false → c ≠ ':' →
      tns_parse (natChars n ++ c :: rest) = .error .badLenPfx) ∧
    (∀ (n : Nat) (payload : List Char), n ≤ TNS_MAX_LENGTH →
      payload.length < n + 1 →
      tns_parse (natChars n ++ ':' :: payload) = .error .badLenPfx) := by
  refine ⟨?_, ?_, ?_, ?_, ?_⟩
  · intro c cs hc
    have hc0 : c ≠ '0' := by
      intro h
      subst h
      exact absurd hc (by decide)
    simp [tns_parse, tnsParseF, tns_strtosz, hc0, hc]
  · intro d rest hd
    have hd' : d ≠ ':' := by
      intro h
      subst h
      exact absurd hd (by decide)
    simp [tns_parse, tnsParseF, tns_strtosz, hd']
  · intro n tail hgt
    exact tns_parse_overflow n hgt tail
  · intro n c rest hle hdig hcol
    unfold tns_parse
    simp only [tnsParseF, strtosz_natChars n c rest hle hdig]
    rw [if_neg hcol]
  · intro n payload hle hshort
    unfold tns_parse
    have hs := strtosz_natChars n ':' payload hle (by decide)
    simp only [tnsParseF, hs]
    rw [if_pos trivial, if_neg (by omega : ¬ n < payload.length)]

/-- The C3 counterexample: the truncated `"5:hello"` fails with the very
same error as the not-even-a-digit `"x"` — no distinct truncation error. -/
theorem C3_counterexample :
    tns_parse ['5', ':', 'h', 'e', 'l', 'l', 'o'] = .error .badLenPfx ∧
    tns_parse ['x'] = .error .badLenPfx := by decide

/-- C3's five failure classes at concrete inputs. -/
theorem C3_witness :
    tns_parse ['x', '1'] = .error .badLenPfx ∧
    tns_parse ['0', '5', ':'] = .error .badLenPfx ∧
    tns_parse (natChars 1000000000 ++ []) = .error .badLenPfx ∧
    tns_parse (natChars 3 ++ 'z' :: []) = .error .badLenPfx ∧
    tns_parse (natChars 5 ++ ':' :: ['h', 'e', 'l', 'l', 'o']) = .error .badLenPfx :=
  ⟨C3_framing_errors.1 'x' ['1'] (by decide),
   C3_framing_errors.2.1 '5' [':'] (by decide),
   C3_framing_errors.2.2.1 1000000000 [] (by decide),
   C3_framing_errors.2.2.2.1 3 'z' [] (by decide) (by decide) (by decide),
   C3_framing_errors.2.2.2.2 5 ['h', 'e', 'l', 'l', 'o'] (by decide) (by decide)⟩

/--
Claim C4 (corrected).  The hand-rolled paths of `tns_parse_integer`
(every input shorter than 19 bytes) accept exactly an optional single
leading `'+'`/`'-'` followed by a possibly EMPTY digit run — a lone sign
yields `0`, the correction to the claimed "one or more digits" (see the
counterexample) — and reject whitespace and any other byte anywhere.
The `PyLong_FromString` fallback (19 bytes or more) additionally accepts
surrounding whitespace and an `'L'`/`'l'` suffix, so the claimed
cross-path observational identity also fails (see the counterexample);
all paths do agree on every canonically rendered integer.
-/
theorem C4_integer_paths :
    (∀ s : List Char, s.length < 19 → tns_parse_integer s = intGrammarSmall s) ∧
    (∀ n : Int, tns_parse_integer (intChars n) = some n) := by
  constructor
  · intro s h19
    unfold tns_parse_integer
    by_cases h10 : s.length < 10
    · rw [if_pos h10]
      exact integerSmall_eq_grammar s
    · rw [if_neg h10, if_pos h19]
      exact integerSmall_eq_grammar s
  · exact tns_parse_integer_intChars

/-- The C4 counterexample: a lone sign is accepted as `0`; a leading space
is rejected on the short path but accepted on the `PyLong_FromString`
path, as is a trailing `'L'` — the paths differ observably. -/
theorem C4_counterexample :
    tns_parse_integer ['+'] = some 0 ∧
    tns_parse_integer [' ', '1'] = none ∧
    tns_parse_integer (' ' :: List.replicate 18 '1') = some 111111111111111111 ∧
    tns_parse_integer (List.replicate 19 '1' ++ ['L']) = some 1111111111111111111 := by
  decide

/-- C4 at concrete inputs, hypotheses discharged by computation. -/
theorem C4_witness :
    ((['-', '4', '2'] : List Char).length < 19 ∧
      tns_parse_integer ['-', '4', '2'] = intGrammarSmall ['-', '4', '2']) ∧
    tns_parse_integer (intChars (-42)) = some (-42) :=
  ⟨⟨by decide, C4_integer_paths.1 ['-', '4', '2'] (by decide)⟩,
   C4_integer_paths.2 (-42)⟩

/--
Claim C5 (corrected).  `tns_parse_float` fails exactly when strtod stops
before the end of the payload (never a partial result: a success always
carries the whole payload), and that is the only failure.  But the strtod
grammar itself admits leading whitespace — a payload that parses keeps
parsing with a space prepended — and the empty payload is accepted as
`0.0` (see the counterexample), so the claimed "no leading junk, no
surrounding whitespace" is corrected.
-/
theorem C5_float_span :
    (∀ s : List Char, tns_parse_float s = none ↔ strtodSpan s < s.length) ∧
    (∀ s : List Char, tns_parse_float s ≠ none →
      tns_parse_float s = some (Value.float s)) ∧
    (∀ s : List Char, s ≠ [] → tns_parse_float s ≠ none →
      tns_parse_float (' ' :: s) = some (Value.float (' ' :: s))) := by
  have hkey : ∀ s : List Char, tns_parse_float s ≠ none → strtodSpan s = s.length := by
    intro s h
    by_contra hne
    exact h (by simp [tns_parse_float, hne])
  refine ⟨?_, ?_, ?_⟩
  · intro s
    have hle := strtodSpan_le s
    constructor
    · intro h
      have hne : ¬ strtodSpan s = s.length := by
        intro he
        simp [tns_parse_float, he] at h
      omega
    · intro h
      simp [tns_parse_float]
      omega
  · intro s h
    have := hkey s h
    simp [tns_parse_float, this]
  · intro s hne h
    have hsp := hkey s h
    have h0 : strtodSpan s ≠ 0 := by
      intro hz
      have hlen : s.length = 0 := by omega
      exact hne (List.length_eq_zero.mp hlen)
    have hcons : strtodSpan (' ' :: s) = (' ' :: s).length := by
      rw [strtodSpan_space s h0, hsp]
      simp
    simp [tns_parse_float, hcons]

/-- The C5 counterexample: a leading space is accepted, and so is the
empty payload (strtod performs no conversion and the C returns `0.0`);
trailing junk is indeed rejected. -/
theorem C5_counterexample :
    tns_parse_float [' ', '1'] = some (Value.float [' ', '1']) ∧
    tns_parse_float [] = some (Value.float []) ∧
    tns_parse_float ['1', 'x'] = none := by decide

/-- C5 at concrete inputs, hypotheses discharged by computation. -/
theorem C5_witness :
    (tns_parse_float ['x'] = none ↔ strtodSpan ['x'] < (['x'] : List Char).length) ∧
    tns_parse_float ['1', '.', '5'] = some (Value.float ['1', '.', '5']) ∧
    tns_parse_float [' ', '2'] = some (Value.float [' ', '2']) :=
  ⟨C5_float_span.1 ['x'],
   C5_float_span.2.1 ['1', '.', '5'] (by decide),
   C5_float_span.2.2 ['2'] (by decide) (by decide)⟩

/--
Claim C6 (confirmed).  Length-prefix exactness: for every value `v`, the
encoding is the decimal numeral of the payload's byte count, a colon, the
payload, and the type tag — so the numeral before `':'` reads back as
exactly `len(encode v) - len(numeral) - 2`, and it starts with `'0'` only
when the payload length is exactly `0` (numeral `"0"`).
-/
theorem C6_length_exactness (v : Value) :
    tns_render v = natChars (payloadV v).length ++ ':' ::
      (payloadV v ++ [tns_get_type v]) ∧
    valD (natChars (payloadV v).length) 0 = (payloadV v).length ∧
    (payloadV v).length + (natChars (payloadV v).length).length + 2 =
      (tns_render v).length ∧
    (∀ c cs, natChars (payloadV v).length = c :: cs → c = '0' →
      (payloadV v).length = 0) := by
  have he : tns_render v = encV v := tns_render_eq_encV v
  refine ⟨by rw [he]; rfl, valD_natChars _, ?_, ?_⟩
  · rw [he]
    simp only [encV, List.length_append, List.length_cons, List.length_nil]
    omega
  · intro c cs hnc hc
    by_contra hnz
    exact natChars_head_ne_zero (payloadV v).length (by omega) c cs hnc hc

/-- C6 at a concrete value. -/
theorem C6_witness :
    valD (natChars (payloadV (Value.int 7)).length) 0 =
      (payloadV (Value.int 7)).length :=
  (C6_length_exactness (Value.int 7)).2.1

/--
Claim C7 (corrected).  The back-of-buffer writer (`tns_core.c`'s inlined
outbuf) does NOT emit bytes in call order: each `putc`/`puts` call's chunk
is prepended, so `tns_outbuf_finalize` returns the chunks in REVERSE call
order (bytes within one chunk kept forward) — see the counterexample.
This theorem is the corrected contract: the finalized bytes are the
concatenation of the reversed call sequence's chunks, and the reported
size is their total length.  (The renderer is written against this
reversed contract, emitting trailing parts first.)
-/
theorem C7_finalize_order (ops : List PutOp) :
    (finalizeB (runPB ops)).1 = ((ops.map chunkOf).reverse).flatten ∧
    (finalizeB (runPB ops)).2 = ((ops.map chunkOf).reverse).flatten.length := by
  obtain ⟨hI, hc⟩ := foldPB_content ops initB initB_ok.1
  have hcontent : contentB (ops.foldl stepPB initB) =
      ((ops.map chunkOf).reverse).flatten := by
    rw [hc, initB_ok.2, List.append_nil]
  have hlen : (contentB (ops.foldl stepPB initB)).length =
      sizeB (ops.foldl stepPB initB) := by
    obtain ⟨h1, h2, h3⟩ := hI
    simp only [contentB, sizeB, List.length_drop]
    omega
  constructor
  · show contentB (ops.foldl stepPB initB) = ((ops.map chunkOf).reverse).flatten
    exact hcontent
  · show sizeB (ops.foldl stepPB initB) = ((ops.map chunkOf).reverse).flatten.length
    rw [← hlen, hcontent]

/-- The C7 counterexample: two `putc` calls come back out in reverse call
order under the back writer. -/
theorem C7_counterexample :
    finalizeB (runPB [PutOp.putc 'a', PutOp.putc 'b']) = (['b', 'a'], 2) ∧
    (['b', 'a'] : List Char) ≠ ['a', 'b'] := by decide

/-- C7 at a concrete call sequence. -/
theorem C7_witness :
    (finalizeB (runPB [PutOp.puts ['h', 'i'], PutOp.putc '!'])).1 =
      ((([PutOp.puts ['h', 'i'], PutOp.putc '!']).map chunkOf).reverse).flatten :=
  (C7_finalize_order [PutOp.puts ['h', 'i'], PutOp.putc '!']).1

/--
Claim C8 (confirmed).  Loop progress and termination: every successful
(possibly recursive) `tns_parse` activation consumes at least three bytes
(digit, colon, tag) and never more than it was given, its remain output
being a suffix of its input — so the `tns_parse_list` / `tns_parse_dict`
item loops, which iterate on exactly that remain, strictly shrink their
payload and terminate on every input.  Totality on every input, the
malformed ones included, is witnessed by fuel-independence: any fuel
beyond the input's length (one unit per nested activation, which the
shrinking makes sufficient) gives the same — defined — result.
-/
theorem C8_loop_progress :
    (∀ (f : Nat) (data : List Char) (v : Value) (rem : List Char),
      tnsParseF f data = .ok (v, rem) →
      ∃ k, 3 ≤ k ∧ k ≤ data.length ∧ rem = data.drop k) ∧
    (∀ (data : List Char) (f : Nat), data.length < f →
      tnsParseF f data = tns_parse data) :=
  ⟨tnsParseF_consume, tnsParseF_eq_tns_parse⟩

/-- C8 at a concrete input, hypotheses discharged by computation. -/
theorem C8_witness :
    tnsParseF 5 ['1', ':', 'a', ','] = .ok (Value.str ['a'], []) ∧
    (∃ k, 3 ≤ k ∧ k ≤ (['1', ':', 'a', ','] : List Char).length ∧
      ([] : List Char) = (['1', ':', 'a', ','] : List Char).drop k) ∧
    tnsParseF 9 ['1', ':', 'a', ','] = tns_parse ['1', ':', 'a', ','] :=
  ⟨by decide,
   C8_loop_progress.1 5 ['1', ':', 'a', ','] (Value.str ['a']) [] (by decide),
   C8_loop_progress.2 ['1', ':', 'a', ','] 9 (by decide)⟩

/--
Claim C9 (confirmed).  The two output-buffer implementations — the
back-of-buffer writer (`tns_outbuf_back.c`, modelled by `BackBuf`) and
the write-in-reverse-then-flip writer (`tns_outbuf_rev`, modelled by
`RevBuf`) — are observationally equivalent: after any sequence of `putc`,
`puts` and `clamp` calls on freshly initialized buffers, both report the
same size and `finalize` returns the same byte string with the same
length, proved by the simulation `contentB = (contentR).reverse`.
-/
theorem C9_outbuf_equiv (ops : List OutOp) :
    sizeB (runOB ops) = sizeR (runOR ops) ∧
    finalizeB (runOB ops) = finalizeR (runOR ops) := by
  obtain ⟨_, _, hsz, hct⟩ := runO_sim ops
  refine ⟨hsz, ?_⟩
  show (contentB (runOB ops), sizeB (runOB ops)) =
    ((contentR (runOR ops)).reverse, sizeR (runOR ops))
  rw [hct, hsz]

/-- C9 at a concrete call sequence. -/
theorem C9_witness :
    finalizeB (runOB [OutOp.puts ['h', 'i'], OutOp.clamp 0]) =
      finalizeR (runOR [OutOp.puts ['h', 'i'], OutOp.clamp 0]) :=
  (C9_outbuf_equiv [OutOp.puts ['h', 'i'], OutOp.clamp 0]).2

/--
Claim C10 (code bug).  The spec demands that `tns_parse` inspect only
offsets `0 .. len-1`; but `tns_strtosz` executes `c = *pos++` BEFORE any
bounds test, so for every memory and `len = 0` the instrumented framing
model records a read at offset `0 ≥ len` — and on the input `"0"`
(`len = 1`) the `'0'` shortcut returns end-pointer `1` and the colon
check `*valstr == ':'` reads offset `1 ≥ len`.  Both reads are past the
buffer's end, refuting the claimed safety property.
-/
theorem C10_oob_reads :
    (∀ mem : Nat → Char, ∃ off, off ∈ tns_parseMemReads mem 0 ∧ 0 ≤ off) ∧
    (∀ mem : Nat → Char, mem 0 = '0' →
      ∃ off, off ∈ tns_parseMemReads mem 1 ∧ 1 ≤ off) := by
  constructor
  · intro mem
    exact ⟨0, parseMemReads_zero mem 0, le_refl 0⟩
  · intro mem h0
    refine ⟨1, ?_, le_refl 1⟩
    unfold tns_parseMemReads tns_strtoszMem
    dsimp only
    rw [if_pos h0]
    dsimp only
    split
    · split <;> simp
    · simp

/-- C10 at a concrete memory, hypotheses discharged by computation. -/
theorem C10_witness :
    (fun _ : Nat => '0') 0 = '0' ∧
    ∃ off, off ∈ tns_parseMemReads (fun _ : Nat => '0') 1 ∧ 1 ≤ off :=
  ⟨rfl, C10_oob_reads.2 (fun _ : Nat => '0') rfl⟩
